import Mathlib

/-!
# small-blockchain-golang: the hash chain of `main.go`

A shallow embedding of the ledger core of `main.go` (`Block`, `BookCheckout`,
`generateHash`, `CreateBlock`, `validBlock`, `validateHash`, `AddBlock`,
`GenesisBlock`, `NewBlockChain`, `writeBlock`) and of the book handler
`newBook`, together with executable models of the Go standard-library functions
the code calls (`fmt.Sprintf("%d")`, `json.Marshal`, `json.MarshalIndent`,
`sha256`, `md5`, `hex.EncodeToString`).

Conventions.

* Go `int` is 64-bit two's complement: a value is an `Int` in
  `[-2^63, 2^63)` and `+` wraps (`addInt64`).
* A Go string is a sequence of bytes. `RawBookCheckout` and `RawBlock` hold
  their strings as bytes (`List Nat`), and `jsonMarshalBytes`, `hashInputBytes`
  and `generateHashRaw` are `json.Marshal` and `generateHash` on them, with the
  escape that `json.Marshal` writes for bytes that are not valid UTF-8.
* The strings this program makes itself are valid UTF-8 (literals and hex
  digests). `BookCheckout` and `Block` are the records all of whose strings are
  valid UTF-8, held as Lean `String`s; `Block.toRaw` gives their bytes, and
  `generateHashRaw_toRaw` shows that `generateHash` on them is `generateHashRaw`.
* A `*Block` that a function writes through is passed in and returned
  (state passing). `generateHash` writes `b.Hash`; so do `validateHash` and
  `validBlock` on their candidate. `prevBlock` is only ever read.
* A run-time panic (index out of range) is `none`.
-/

namespace SmallBlockchain

/-! ## Go standard library: integers and formatting -/

/-- Two's complement wrap of an integer into the range of a Go `int` (64 bit). -/
def wrapInt64 (x : Int) : Int :=
  (x + 9223372036854775808) % 18446744073709551616 - 9223372036854775808

/-- Go `a + b` on `int`. -/
def addInt64 (a b : Int) : Int := wrapInt64 (a + b)

/-- The decimal digit character of `d < 10`. -/
def decimalDigit (d : Nat) : Char := Char.ofNat (48 + d)

/-- Decimal digits of `n`, most significant first; `fuel` bounds the number of digits. -/
def natDigits : Nat → Nat → List Char
  | 0, _ => []
  | fuel + 1, n =>
    if n < 10 then [decimalDigit n]
    else natDigits fuel (n / 10) ++ [decimalDigit (n % 10)]

/-- The verb `%d` on a non-negative number. -/
def formatNat (n : Nat) : String := String.mk (natDigits (n + 1) n)

/-- The call `fmt.Sprintf("%d", i)`: decimal, with a leading minus sign for negatives. -/
def formatInt (i : Int) : String :=
  if i < 0 then "-" ++ formatNat (-i).toNat else formatNat i.toNat

/-! ## Go standard library: bytes of a string, hexadecimal -/

/-- UTF-8 encoding of one code point, as bytes. -/
def utf8Bytes (c : Char) : List Nat :=
  let v := c.toNat
  if v < 128 then [v]
  else if v < 2048 then [192 + v / 64, 128 + v % 64]
  else if v < 65536 then [224 + v / 4096, 128 + v / 64 % 64, 128 + v % 64]
  else [240 + v / 262144, 128 + v / 4096 % 64, 128 + v / 64 % 64, 128 + v % 64]

/-- The conversion `[]byte(s)`. -/
def stringBytes (s : String) : List Nat := s.data.flatMap utf8Bytes

/-- One digit of the table `0123456789abcdef`. -/
def hexDigit (d : Nat) : Char :=
  if d < 10 then Char.ofNat (48 + d) else Char.ofNat (87 + d)

/-- The two lowercase hexadecimal digits of a byte. -/
def hexByte (b : Nat) : List Char := [hexDigit (b / 16 % 16), hexDigit (b % 16)]

/-- The function `hex.EncodeToString`. -/
def hexEncodeToString (bs : List Nat) : String := String.mk (bs.flatMap hexByte)

/-! ## Go standard library: SHA-256 (FIPS 180-4) over 32-bit words held in `Nat` -/

/-- Addition modulo `2^32`. -/
def add32 (x y : Nat) : Nat := (x + y) % 4294967296

/-- Rotation of a 32-bit word to the right by `n` bits. -/
def rotr32 (x n : Nat) : Nat := (x >>> n ||| x <<< (32 - n)) % 4294967296

/-- Bitwise complement of a 32-bit word. -/
def not32 (x : Nat) : Nat := 4294967295 - x % 4294967296

def bigSigma0 (x : Nat) : Nat := rotr32 x 2 ^^^ rotr32 x 13 ^^^ rotr32 x 22

def bigSigma1 (x : Nat) : Nat := rotr32 x 6 ^^^ rotr32 x 11 ^^^ rotr32 x 25

def smallSigma0 (x : Nat) : Nat := rotr32 x 7 ^^^ rotr32 x 18 ^^^ x >>> 3

def smallSigma1 (x : Nat) : Nat := rotr32 x 17 ^^^ rotr32 x 19 ^^^ x >>> 10

def ch32 (x y z : Nat) : Nat := (x &&& y) ^^^ (not32 x &&& z)

def maj32 (x y z : Nat) : Nat := (x &&& y) ^^^ (x &&& z) ^^^ (y &&& z)

/-- The 64 round constants: the first 32 bits of the fractional parts of the cube
roots of the first 64 primes (checked in `sha256K_cube_roots`). -/
def sha256K : List Nat :=
  [1116352408, 1899447441, 3049323471, 3921009573, 961987163, 1508970993,
   2453635748, 2870763221, 3624381080, 310598401, 607225278, 1426881987,
   1925078388, 2162078206, 2614888103, 3248222580, 3835390401, 4022224774,
   264347078, 604807628, 770255983, 1249150122, 1555081692, 1996064986,
   2554220882, 2821834349, 2952996808, 3210313671, 3336571891, 3584528711,
   113926993, 338241895, 666307205, 773529912, 1294757372, 1396182291,
   1695183700, 1986661051, 2177026350, 2456956037, 2730485921, 2820302411,
   3259730800, 3345764771, 3516065817, 3600352804, 4094571909, 275423344,
   430227734, 506948616, 659060556, 883997877, 958139571, 1322822218,
   1537002063, 1747873779, 1955562222, 2024104815, 2227730452, 2361852424,
   2428436474, 2756734187, 3204031479, 3329325298]

/-- The eight working words of the digest. -/
structure Sha256State where
  a : Nat
  b : Nat
  c : Nat
  d : Nat
  e : Nat
  f : Nat
  g : Nat
  h : Nat
  deriving DecidableEq, Repr

/-- The initial hash value: the first 32 bits of the fractional parts of the square
roots of the first 8 primes (checked in `sha256Init_square_roots`). -/
def sha256Init : Sha256State :=
  ⟨1779033703, 3144134277, 1013904242, 2773480762,
   1359893119, 2600822924, 528734635, 1541459225⟩

/-- Padding: the byte `0x80`, zero bytes up to 56 modulo 64, then the bit length
as 8 big-endian bytes. -/
def sha256Pad (msg : List Nat) : List Nat :=
  let bits := msg.length * 8 % 18446744073709551616
  msg ++ [128] ++ List.replicate ((119 - msg.length % 64) % 64) 0 ++
    (List.range 8).map (fun i => bits / 256 ^ (7 - i) % 256)

/-- Big-endian 32-bit words of a byte sequence (a trailing group of fewer than
four bytes is dropped; padded input has none). -/
def beWords : List Nat → List Nat
  | b0 :: b1 :: b2 :: b3 :: rest =>
    (b0 * 16777216 + b1 * 65536 + b2 * 256 + b3) :: beWords rest
  | _ => []

/-- Message schedule, newest word first: `n` more words from the recurrence
`W[t] = σ1(W[t-2]) + W[t-7] + σ0(W[t-15]) + W[t-16]`. -/
def sha256Extend : Nat → List Nat → List Nat
  | 0, ws => ws
  | n + 1, ws =>
    let w := add32 (add32 (smallSigma1 (ws.getD 1 0)) (ws.getD 6 0))
      (add32 (smallSigma0 (ws.getD 14 0)) (ws.getD 15 0))
    sha256Extend n (w :: ws)

/-- The 64 words of the message schedule of one 16-word block. -/
def sha256Schedule (block : List Nat) : List Nat :=
  (sha256Extend 48 block.reverse).reverse

/-- One round of the compression function with constant `k` and schedule word `w`. -/
def sha256Round (s : Sha256State) (kw : Nat × Nat) : Sha256State :=
  let t1 := add32 (add32 (add32 s.h (bigSigma1 s.e)) (ch32 s.e s.f s.g)) (add32 kw.1 kw.2)
  let t2 := add32 (bigSigma0 s.a) (maj32 s.a s.b s.c)
  ⟨add32 t1 t2, s.a, s.b, s.c, add32 s.d t1, s.e, s.f, s.g⟩

/-- Compression of one 16-word block into the running state. -/
def sha256Compress (s : Sha256State) (block : List Nat) : Sha256State :=
  let r := (sha256K.zip (sha256Schedule block)).foldl sha256Round s
  ⟨add32 s.a r.a, add32 s.b r.b, add32 s.c r.c, add32 s.d r.d,
   add32 s.e r.e, add32 s.f r.f, add32 s.g r.g, add32 s.h r.h⟩

/-- Compression of `n` consecutive 16-word blocks. -/
def sha256Blocks : Nat → Sha256State → List Nat → Sha256State
  | 0, s, _ => s
  | n + 1, s, ws => sha256Blocks n (sha256Compress s (ws.take 16)) (ws.drop 16)

/-- The four big-endian bytes of a 32-bit word. -/
def wordBytes (w : Nat) : List Nat :=
  [w / 16777216 % 256, w / 65536 % 256, w / 256 % 256, w % 256]

/-- The 32 bytes of the final state. -/
def sha256Digest (s : Sha256State) : List Nat :=
  wordBytes s.a ++ wordBytes s.b ++ wordBytes s.c ++ wordBytes s.d ++
  wordBytes s.e ++ wordBytes s.f ++ wordBytes s.g ++ wordBytes s.h

/-- The digest `sha256.New(); Write(msg); Sum(nil)` of a byte sequence. -/
def sha256Sum (msg : List Nat) : List Nat :=
  let ws := beWords (sha256Pad msg)
  sha256Digest (sha256Blocks (ws.length / 16) sha256Init ws)

/-! ## Go standard library: MD5 (RFC 1321) over 32-bit words held in `Nat` -/

/-- Rotation of a 32-bit word to the left by `n` bits. -/
def rotl32 (x n : Nat) : Nat := (x <<< n ||| x >>> (32 - n)) % 4294967296

/-- The 64 sine-derived constants of MD5, the integer part of `2^32 * |sin (i + 1)|`. -/
def md5K : List Nat :=
  [3614090360, 3905402710, 606105819, 3250441966, 4118548399, 1200080426,
   2821735955, 4249261313, 1770035416, 2336552879, 4294925233, 2304563134,
   1804603682, 4254626195, 2792965006, 1236535329, 4129170786, 3225465664,
   643717713, 3921069994, 3593408605, 38016083, 3634488961, 3889429448,
   568446438, 3275163606, 4107603335, 1163531501, 2850285829, 4243563512,
   1735328473, 2368359562, 4294588738, 2272392833, 1839030562, 4259657740,
   2763975236, 1272893353, 4139469664, 3200236656, 681279174, 3936430074,
   3572445317, 76029189, 3654602809, 3873151461, 530742520, 3299628645,
   4096336452, 1126891415, 2878612391, 4237533241, 1700485571, 2399980690,
   4293915773, 2240044497, 1873313359, 4264355552, 2734768916, 1309151649,
   4149444226, 3174756917, 718787259, 3951481745]

/-- The rotation amount of step `i`: four amounts per round of 16 steps. -/
def md5Shift (i : Nat) : Nat :=
  ([[7, 12, 17, 22], [5, 9, 14, 20], [4, 11, 16, 23], [6, 10, 15, 21]].getD (i / 16) []).getD
    (i % 4) 0

/-- The four working words of the MD5 digest. -/
structure Md5State where
  a : Nat
  b : Nat
  c : Nat
  d : Nat
  deriving DecidableEq, Repr

/-- The initial value of the MD5 state. -/
def md5Init : Md5State := ⟨1732584193, 4023233417, 2562383102, 271733878⟩

/-- Padding of MD5: the byte `0x80`, zero bytes up to 56 modulo 64, then the bit
length as 8 little-endian bytes. -/
def md5Pad (msg : List Nat) : List Nat :=
  let bits := msg.length * 8 % 18446744073709551616
  msg ++ [128] ++ List.replicate ((119 - msg.length % 64) % 64) 0 ++
    (List.range 8).map (fun i => bits / 256 ^ i % 256)

/-- Little-endian 32-bit words of a byte sequence (a trailing group of fewer than
four bytes is dropped; padded input has none). -/
def leWords : List Nat → List Nat
  | b0 :: b1 :: b2 :: b3 :: rest =>
    (b0 + b1 * 256 + b2 * 65536 + b3 * 16777216) :: leWords rest
  | _ => []

/-- Step `i` of the MD5 compression of the 16-word block `m`. -/
def md5Step (m : List Nat) (s : Md5State) (i : Nat) : Md5State :=
  let f :=
    if i < 16 then (s.b &&& s.c) ||| (not32 s.b &&& s.d)
    else if i < 32 then (s.d &&& s.b) ||| (not32 s.d &&& s.c)
    else if i < 48 then s.b ^^^ s.c ^^^ s.d
    else s.c ^^^ (s.b ||| not32 s.d)
  let g :=
    if i < 16 then i
    else if i < 32 then (5 * i + 1) % 16
    else if i < 48 then (3 * i + 5) % 16
    else 7 * i % 16
  let t := add32 (add32 f s.a) (add32 (md5K.getD i 0) (m.getD g 0))
  ⟨s.d, add32 s.b (rotl32 t (md5Shift i)), s.b, s.c⟩

/-- Compression of one 16-word block into the running MD5 state. -/
def md5Compress (s : Md5State) (m : List Nat) : Md5State :=
  let r := (List.range 64).foldl (md5Step m) s
  ⟨add32 s.a r.a, add32 s.b r.b, add32 s.c r.c, add32 s.d r.d⟩

/-- Compression of `n` consecutive 16-word blocks by MD5. -/
def md5Blocks : Nat → Md5State → List Nat → Md5State
  | 0, s, _ => s
  | n + 1, s, ws => md5Blocks n (md5Compress s (ws.take 16)) (ws.drop 16)

/-- The four little-endian bytes of a 32-bit word. -/
def wordBytesLE (w : Nat) : List Nat :=
  [w % 256, w / 256 % 256, w / 65536 % 256, w / 16777216 % 256]

/-- The 16 bytes of the final MD5 state. -/
def md5Digest (s : Md5State) : List Nat :=
  wordBytesLE s.a ++ wordBytesLE s.b ++ wordBytesLE s.c ++ wordBytesLE s.d

/-- The digest `md5.New(); io.WriteString(h, msg); h.Sum(nil)` of a byte sequence. -/
def md5Sum (msg : List Nat) : List Nat :=
  let ws := leWords (md5Pad msg)
  md5Digest (md5Blocks (ws.length / 16) md5Init ws)

/-! ## Go standard library: `json.Marshal` of the payload -/

/-- Escaping of one code point inside a JSON string, as `encoding/json` does with
HTML escaping on: quote and backslash get a backslash; backspace, form feed,
newline, carriage return and tab their short escapes; other control characters
and `<`, `>`, `&` become `\u00XX`; U+2028 and U+2029 become `\u202X`; every
other code point is copied. (The short escapes for backspace and form feed are
those of Go 1.22 and later; earlier releases wrote `\u0008` and `\u000c`.) -/
def jsonEscape (c : Char) : List Char :=
  let v := c.toNat
  if v = 34 ∨ v = 92 then [Char.ofNat 92, c]
  else if v = 8 then [Char.ofNat 92, 'b']
  else if v = 12 then [Char.ofNat 92, 'f']
  else if v = 10 then [Char.ofNat 92, 'n']
  else if v = 13 then [Char.ofNat 92, 'r']
  else if v = 9 then [Char.ofNat 92, 't']
  else if v < 32 ∨ v = 60 ∨ v = 62 ∨ v = 38 then
    [Char.ofNat 92, 'u', '0', '0', hexDigit (v / 16), hexDigit (v % 16)]
  else if v = 8232 ∨ v = 8233 then
    [Char.ofNat 92, 'u', '2', '0', '2', hexDigit (v % 16)]
  else [c]

/-- A Go string that is valid UTF-8 as a JSON string literal (`jsonStringBytes` is
the function on all Go strings; `jsonStringBytes_stringBytes` shows they agree). -/
def jsonString (s : String) : String :=
  "\"" ++ String.mk (s.data.flatMap jsonEscape) ++ "\""

/-- A Go bool as JSON. -/
def jsonBool (b : Bool) : String := if b then "true" else "false"

/-! ## Data model (`main.go`, lines 16-45) -/

/-- BookCheckout defines the data for a library book checkout system. Here with
strings that are valid UTF-8; `RawBookCheckout` has any bytes. -/
structure BookCheckout where
  BookID : String
  User : String
  CheckOutDate : String
  IsGenesis : Bool
  deriving DecidableEq, Repr

/-- Block represents each block in the blockchain. Here with strings that are
valid UTF-8; `RawBlock` has any bytes. -/
structure Block where
  Index : Int
  Timestamp : String
  Data : BookCheckout
  Hash : String
  PrevHash : String
  deriving DecidableEq, Repr

/-- Book represents a book in the library system. -/
structure Book where
  ID : String
  Title : String
  Author : String
  PublishDate : String
  ISBN : String
  deriving DecidableEq, Repr

/-- Blockchain is a series of validated blocks. -/
structure Blockchain where
  blocks : List Block
  deriving DecidableEq, Repr

/-- The zero value `BookCheckout{}`. -/
def BookCheckout.zero : BookCheckout := ⟨"", "", "", false⟩

/-- The zero value `Block{}`. -/
def Block.zero : Block := ⟨0, "", BookCheckout.zero, "", ""⟩

/-- The call `json.Marshal(b.Data)` on a payload whose strings are valid UTF-8:
the fields in declaration order under their JSON names. Marshalling this struct
cannot fail. (`jsonMarshalBytes` is the call on all Go strings;
`jsonMarshalBytes_toRaw` shows they agree.) -/
def jsonMarshal (d : BookCheckout) : String :=
  "\x7b\"book_id\":" ++ jsonString d.BookID ++
  ",\"user\":" ++ jsonString d.User ++
  ",\"checkout_date\":" ++ jsonString d.CheckOutDate ++
  ",\"is_genesis\":" ++ jsonBool d.IsGenesis ++ "\x7d"

/-! ## The ledger (`main.go`, lines 74-137) -/

/-- The string `data` that `generateHash` builds with
`fmt.Sprintf("%d%s%s%s", b.Index, b.Timestamp, string(bytes), b.PrevHash)`. -/
def hashInput (b : Block) : String :=
  formatInt b.Index ++ b.Timestamp ++ jsonMarshal b.Data ++ b.PrevHash

/-- The method `generateHash`: overwrites `b.Hash` with the hex SHA-256 of `hashInput b`. -/
def generateHash (b : Block) : Block :=
  let data := hashInput b
  let hash := sha256Sum (stringBytes data)
  { b with Hash := hexEncodeToString hash }

/-- CreateBlock creates a new block using previous block's hash. -/
def CreateBlock (prevBlock : Block) (data : BookCheckout) : Block :=
  let block : Block :=
    { Index := addInt64 prevBlock.Index 1
      Timestamp := "now"
      Data := data
      Hash := ""
      PrevHash := prevBlock.Hash }
  generateHash block

/-- The method `validateHash`: regenerates the hash of `b` in place and compares
it with the argument. Returns the verdict and the block as the call leaves it. -/
def validateHash (b : Block) (hash : String) : Bool × Block :=
  let b := generateHash b
  (b.Hash == hash, b)

/-- The function `validBlock`: the three checks joined by the short-circuit `&&`;
the argument `block.Hash` of `validateHash` is read before the call. Returns the
verdict and the candidate as the call leaves it; `prevBlock` is only read. The
two pointers are distinct records, as in `AddBlock`, where the candidate is
freshly allocated (on one and the same record the first check fails before any
write). -/
def validBlock (block prevBlock : Block) : Bool × Block :=
  if addInt64 prevBlock.Index 1 = block.Index then
    if prevBlock.Hash = block.PrevHash then
      validateHash block block.Hash
    else (false, block)
  else (false, block)

/-- The statement `if validBlock(block, prevBlock) { bc.blocks = append(bc.blocks, block) }`
of `AddBlock`, for an arbitrary candidate. -/
def appendIfValid (bc : Blockchain) (block prevBlock : Block) : Blockchain :=
  let r := validBlock block prevBlock
  if r.1 then { blocks := bc.blocks ++ [r.2] } else bc

/-- The method `AddBlock`. The lookup `bc.blocks[len(bc.blocks)-1]` panics on an
empty slice (`none`); the truncated subtraction keeps the index out of range there. -/
def AddBlock (bc : Blockchain) (data : BookCheckout) : Option Blockchain :=
  match bc.blocks[bc.blocks.length - 1]? with
  | none => none
  | some prevBlock =>
    let block := CreateBlock prevBlock data
    let r := validBlock block prevBlock
    if r.1 then some { blocks := bc.blocks ++ [r.2] } else some bc

/-- GenesisBlock creates the first block in the blockchain. -/
def GenesisBlock : Block :=
  CreateBlock Block.zero { BookCheckout.zero with IsGenesis := true }

/-- NewBlockChain initializes a new blockchain with a genesis block. -/
def NewBlockChain : Blockchain := { blocks := [GenesisBlock] }

/-- The handler `writeBlock` on the global chain: `decoded` is the result of
decoding the request body into a `BookCheckout` (`none` when decoding fails, in
which case the handler answers 500 and returns). -/
def writeBlock (bc : Blockchain) (decoded : Option BookCheckout) : Option Blockchain :=
  match decoded with
  | none => some bc
  | some checkoutItem => AddBlock bc checkoutItem

/-- A finite sequence of `AddBlock` calls, one per payload, in order. -/
def addBlocks (bc : Blockchain) : List BookCheckout → Option Blockchain
  | [] => some bc
  | d :: ds => (AddBlock bc d).bind (fun bc1 => addBlocks bc1 ds)

/-! ## The book handler (`main.go`, lines 49-72) -/

/-- The string that `newBook` writes into the MD5 hash: `book.ISBN+book.PublishDate`. -/
def newBookInput (book : Book) : String := book.ISBN ++ book.PublishDate

/-- Lines 59-61 of `newBook`: the decoded book with its ID overwritten by
`fmt.Sprintf("%x", h.Sum(nil))`, the lowercase hex of the MD5 digest of
`newBookInput book` (the verb `%x` on a byte slice writes two lowercase
hexadecimal digits per byte, as `hex.EncodeToString` does). -/
def newBookRecord (book : Book) : Book :=
  { book with ID := hexEncodeToString (md5Sum (stringBytes (newBookInput book))) }

/-- The call `json.MarshalIndent(book, "", " ")`. Marshalling this struct cannot fail. -/
def jsonMarshalIndentBook (book : Book) : String :=
  "\x7b\n \"id\": " ++ jsonString book.ID ++
  ",\n \"title\": " ++ jsonString book.Title ++
  ",\n \"author\": " ++ jsonString book.Author ++
  ",\n \"publish_date\": " ++ jsonString book.PublishDate ++
  ",\n \"isbn\": " ++ jsonString book.ISBN ++ "\n\x7d"

/-- The handler `newBook`: `decoded` is the result of decoding the request body
into a `Book` (`none` when decoding fails). Returns the status code and the body
of the response. -/
def newBook (decoded : Option Book) : Nat × String :=
  match decoded with
  | none => (500, "Could not create book")
  | some book => (200, jsonMarshalIndentBook (newBookRecord book))

/-! ## Specification-side vocabulary -/

/-- The Fingerprint Function of the specification on the ordered tuple
(position, timestamp, payload, predecessor fingerprint): the hex SHA-256 of the
decimal position, then the timestamp, then the JSON of the payload, then the
predecessor fingerprint. `generateHash_Hash` shows it is what `generateHash` stores. -/
def fingerprint (index : Int) (timestamp : String) (data : BookCheckout) (prevHash : String) :
    String :=
  hexEncodeToString (sha256Sum (stringBytes
    (formatInt index ++ timestamp ++ jsonMarshal data ++ prevHash)))

/-- The three extension checks between a record `prev` and its successor `cur`,
with `+` the addition of Go `int`. -/
def linked (prev cur : Block) : Prop :=
  cur.Index = addInt64 prev.Index 1 ∧ cur.PrevHash = prev.Hash ∧
    fingerprint cur.Index cur.Timestamp cur.Data cur.PrevHash = cur.Hash

/-- The records that a run of `AddBlock` calls puts after the tail `last`: each
one is `CreateBlock` of the record before it (`addBlocks_eq` proves that this is
what `addBlocks` appends). -/
def growBlocks (last : Block) : List BookCheckout → List Block
  | [] => []
  | d :: ds => CreateBlock last d :: growBlocks (CreateBlock last d) ds

/-- Trial-division primality for `n < 324`, for checking the constant tables:
no divisor `m` with `2 ≤ m < 18` and `m < n`. -/
def isPrimeNat (n : Nat) : Bool :=
  decide (2 ≤ n) &&
    (List.range 18).all (fun m => decide (m < 2) || decide (n ≤ m) || n % m != 0)

/-- The first `k` primes below `bound`. -/
def firstPrimes (k bound : Nat) : List Nat := ((List.range bound).filter isPrimeNat).take k

/-- Whether `w` is the first 32 bits of the fractional part of the `e`-th root of `p`. -/
def isRootFraction (e p w : Nat) : Bool :=
  decide (w < 4294967296) && (List.range 8).any (fun n =>
    decide ((n * 4294967296 + w) ^ e ≤ p * 4294967296 ^ e ∧
      p * 4294967296 ^ e < (n * 4294967296 + w + 1) ^ e))

/-! ## Sample records -/

/-- The payload of the append scenario of the specification. -/
def payloadB1 : BookCheckout := ⟨"b1", "alice", "2024-01-01", false⟩

/-- A payload as `POST /` decodes it from a body that sets `"is_genesis": true`. -/
def payloadFlagged : BookCheckout := ⟨"b1", "mallory", "2024-01-01", true⟩

/-- The genesis record, field by field (`GenesisBlock_eq`). -/
def genesisRecord : Block :=
  ⟨1, "now", ⟨"", "", "", true⟩,
    "a8d8441bccc07e5441f62d271e2bc2c671e16bc52edd365c53dc6d7687178cf8", ""⟩

/-- The record that `CreateBlock` builds after the genesis record for `payloadB1`
(`CreateBlock_genesisRecord`). -/
def secondRecord : Block :=
  ⟨2, "now", payloadB1, "83f169f573e7d5455ad0cd7bf8fea227d7b2f02c698df41daa02018de79f011d",
    "a8d8441bccc07e5441f62d271e2bc2c671e16bc52edd365c53dc6d7687178cf8"⟩

/-- The second record with its Hash replaced by a value that is not its fingerprint. -/
def tamperedCandidate : Block := { secondRecord with Hash := "forged" }

/-- A candidate with the right Index and a Hash consistent with its own fields,
whose PrevHash is not the Hash of the genesis record. -/
def forgedLinkCandidate : Block := generateHash ⟨2, "now", payloadB1, "", "forged"⟩

/-- A tail whose Index is the largest Go `int`. -/
def lastIndexRecord : Block := { genesisRecord with Index := 9223372036854775807 }

/-! ## Reading the encodings back -/

/-- The value of a lowercase hexadecimal digit. -/
def hexValue (c : Char) : Nat := if c.toNat < 58 then c.toNat - 48 else c.toNat - 87

/-- Reads one escaped code point off the front of the inside of a JSON string:
the inverse of `jsonEscape` (`jsonUnescapeHead_jsonEscape`). -/
def jsonUnescapeHead : List Char → Option (Char × List Char)
  | [] => none
  | c :: l =>
    if c.toNat ≠ 92 then some (c, l)
    else
      match l with
      | [] => none
      | e :: l1 =>
        if e.toNat = 98 then some (Char.ofNat 8, l1)
        else if e.toNat = 102 then some (Char.ofNat 12, l1)
        else if e.toNat = 110 then some (Char.ofNat 10, l1)
        else if e.toNat = 114 then some (Char.ofNat 13, l1)
        else if e.toNat = 116 then some (Char.ofNat 9, l1)
        else if e.toNat = 117 then
          match l1 with
          | a :: b :: x :: y :: l2 =>
            some (Char.ofNat (hexValue a * 4096 + hexValue b * 256 + hexValue x * 16 +
              hexValue y), l2)
          | _ => none
        else some (e, l1)

/-- The number that a list of decimal digits writes. -/
def decimalValue (l : List Char) : Nat := l.foldl (fun acc c => 10 * acc + (c.toNat - 48)) 0

/-- A decimal digit character. -/
def isDecimal (c : Char) : Prop := 48 ≤ c.toNat ∧ c.toNat ≤ 57

/-! ## More sample values -/

/-- The book of the identifier scenario of the specification. -/
def bookA : Book := ⟨"", "Title", "Author", "2020", "ISBN1"⟩

/-- The same ISBN and publish date under another title, author and client-supplied id. -/
def bookB : Book := ⟨"client-id", "Other", "Someone", "2020", "ISBN1"⟩

/-- A book with another ISBN and another publish date whose concatenation is the
same string `ISBN12020`. -/
def bookShifted : Book := ⟨"", "Title", "Author", "020", "ISBN12"⟩

/-- A record at position 1 with timestamp `02:00`. -/
def recordEarly : Block := ⟨1, "02:00", payloadB1, "", "p"⟩

/-- A record at position 10 with timestamp `2:00` and otherwise the fields of `recordEarly`. -/
def recordLate : Block := ⟨10, "2:00", payloadB1, "", "p"⟩

/-! ## Go strings as bytes: `json.Marshal` and `generateHash` on arbitrary strings -/

/-- The function `utf8.DecodeRuneInString`: the rune at the front of `s` and the
number of bytes it takes, `(65533, 1)` (that is `RuneError`, 1) where `s` does not
begin with a valid encoding. The first byte fixes the size and the range of the
second byte (the table `first` and `acceptRanges` of package `utf8`). -/
def decodeRune (s : List Nat) : Nat × Nat :=
  match s with
  | [] => (65533, 0)
  | s0 :: t =>
    if s0 < 128 then (s0, 1)
    else
      let size :=
        if 194 ≤ s0 ∧ s0 ≤ 223 then 2
        else if 224 ≤ s0 ∧ s0 ≤ 239 then 3
        else if 240 ≤ s0 ∧ s0 ≤ 244 then 4
        else 1
      let lo := if s0 = 224 then 160 else if s0 = 240 then 144 else 128
      let hi := if s0 = 237 then 159 else if s0 = 244 then 143 else 191
      let s1 := t.getD 0 0
      let s2 := t.getD 1 0
      let s3 := t.getD 2 0
      if size = 1 then (65533, 1)
      else if s.length < size then (65533, 1)
      else if s1 < lo ∨ hi < s1 then (65533, 1)
      else if size ≤ 2 then (s0 % 32 * 64 + s1 % 64, 2)
      else if s2 < 128 ∨ 191 < s2 then (65533, 1)
      else if size ≤ 3 then (s0 % 16 * 4096 + s1 % 64 * 64 + s2 % 64, 3)
      else if s3 < 128 ∨ 191 < s3 then (65533, 1)
      else (s0 % 8 * 262144 + s1 % 64 * 4096 + s2 % 64 * 64 + s3 % 64, 4)

/-- One digit of the table `0123456789abcdef`, as a byte. -/
def hexDigitByte (d : Nat) : Nat := if d < 10 then 48 + d else 87 + d

/-- What `encoding/json` writes for a byte below `0x80` inside a string (HTML
escaping on): the byte itself when it is in `htmlSafeSet`, else its escape. -/
def jsonEscapeByte (b : Nat) : List Nat :=
  if b = 34 ∨ b = 92 then [92, b]
  else if b = 8 then [92, 98]
  else if b = 12 then [92, 102]
  else if b = 10 then [92, 110]
  else if b = 13 then [92, 114]
  else if b = 9 then [92, 116]
  else if b < 32 ∨ b = 60 ∨ b = 62 ∨ b = 38 then
    [92, 117, 48, 48, hexDigitByte (b / 16), hexDigitByte (b % 16)]
  else [b]

/-- The loop of `appendString` in `encoding/json`, one rune per step (`fuel`
bounds the steps; the length of `src` is enough). A byte below `0x80` goes
through `jsonEscapeByte`. Otherwise the rune at the front is decoded. Where
`DecodeRuneInString` answers `(RuneError, 1)` the loop appends the raw string
literal of six ASCII characters, backslash, `u`, `f`, `f`, `f`, `d`, and moves
on by one byte (so `json.Marshal("hello\xffworld")` is the text
`"hello\ufffdworld"`, as in the table of `TestMarshalInvalidUTF8`). U+2028 and
U+2029 are written as the six characters backslash, `u`, `2`, `0`, `2`, `8` or
`9`. Every other rune is copied byte for byte (also a well-formed U+FFFD, whose
size is 3). -/
def appendStringLoop : Nat → List Nat → List Nat
  | 0, _ => []
  | fuel + 1, src =>
    match src with
    | [] => []
    | b :: rest =>
      if b < 128 then jsonEscapeByte b ++ appendStringLoop fuel rest
      else
        let r := decodeRune src
        if r.1 = 65533 ∧ r.2 = 1 then
          [92, 117, 102, 102, 102, 100] ++ appendStringLoop fuel rest
        else if r.1 = 8232 ∨ r.1 = 8233 then
          [92, 117, 50, 48, 50, hexDigitByte (r.1 % 16)] ++
            appendStringLoop fuel (src.drop r.2)
        else src.take r.2 ++ appendStringLoop fuel (src.drop r.2)

/-- A Go string, given by its bytes, as a JSON string literal. -/
def jsonStringBytes (s : List Nat) : List Nat :=
  34 :: (appendStringLoop s.length s ++ [34])

/-- The struct `BookCheckout` with its strings as Go holds them: any bytes. -/
structure RawBookCheckout where
  BookID : List Nat
  User : List Nat
  CheckOutDate : List Nat
  IsGenesis : Bool
  deriving DecidableEq, Repr

/-- The struct `Block` with its strings as Go holds them: any bytes. -/
structure RawBlock where
  Index : Int
  Timestamp : List Nat
  Data : RawBookCheckout
  Hash : List Nat
  PrevHash : List Nat
  deriving DecidableEq, Repr

/-- The bytes of a payload whose strings are valid UTF-8. -/
def BookCheckout.toRaw (d : BookCheckout) : RawBookCheckout :=
  ⟨stringBytes d.BookID, stringBytes d.User, stringBytes d.CheckOutDate, d.IsGenesis⟩

/-- The bytes of a record whose strings are valid UTF-8. -/
def Block.toRaw (b : Block) : RawBlock :=
  ⟨b.Index, stringBytes b.Timestamp, b.Data.toRaw, stringBytes b.Hash, stringBytes b.PrevHash⟩

/-- The call `json.Marshal(b.Data)` on arbitrary Go strings. -/
def jsonMarshalBytes (d : RawBookCheckout) : List Nat :=
  stringBytes "\x7b\"book_id\":" ++ jsonStringBytes d.BookID ++
  stringBytes ",\"user\":" ++ jsonStringBytes d.User ++
  stringBytes ",\"checkout_date\":" ++ jsonStringBytes d.CheckOutDate ++
  stringBytes ",\"is_genesis\":" ++ stringBytes (jsonBool d.IsGenesis) ++ [125]

/-- The bytes that `generateHash` feeds to SHA-256, on arbitrary Go strings: the
verb `%s` copies the bytes of a string as they are. -/
def hashInputBytes (b : RawBlock) : List Nat :=
  stringBytes (formatInt b.Index) ++ b.Timestamp ++ jsonMarshalBytes b.Data ++ b.PrevHash

/-- The method `generateHash` on arbitrary Go strings. -/
def generateHashRaw (b : RawBlock) : RawBlock :=
  { b with Hash := stringBytes (hexEncodeToString (sha256Sum (hashInputBytes b))) }

/-- The fingerprint exposes the change from `b` to `b1` unless SHA-256 collides:
the bytes fed to SHA-256 differ, and the recomputed fingerprints differ or else
these two different byte strings have the same SHA-256 digest. -/
def exposesRaw (b b1 : RawBlock) : Prop :=
  hashInputBytes b1 ≠ hashInputBytes b ∧
  ((generateHashRaw b1).Hash ≠ (generateHashRaw b).Hash ∨
    sha256Sum (hashInputBytes b1) = sha256Sum (hashInputBytes b))

/-- A payload whose book id is the single byte `0xff`, not valid UTF-8. -/
def rawPayloadFF : RawBookCheckout := ⟨[255], stringBytes "alice", stringBytes "2024-01-01", false⟩

/-- The same payload with the book id `0xfe`. -/
def rawPayloadFE : RawBookCheckout := ⟨[254], stringBytes "alice", stringBytes "2024-01-01", false⟩

/-- A record that carries `rawPayloadFF` after the genesis record. -/
def rawRecordFF : RawBlock :=
  generateHashRaw ⟨2, stringBytes "now", rawPayloadFF, [], stringBytes genesisRecord.Hash⟩

/-- A record whose user is the single byte `0x80`, not valid UTF-8. -/
def rawRecordUserA : RawBlock :=
  ⟨2, stringBytes "now", ⟨stringBytes "b1", [128], stringBytes "2024-01-01", false⟩, [],
    stringBytes "p"⟩

/-- The same record with the user `0xc0`. -/
def rawRecordUserB : RawBlock :=
  ⟨2, stringBytes "now", ⟨stringBytes "b1", [192], stringBytes "2024-01-01", false⟩, [],
    stringBytes "p"⟩

/-! ## Test vectors for the library models -/

set_option maxRecDepth 100000 in
theorem sha256K_cube_roots :
    sha256K.length = 64 ∧ (firstPrimes 64 312).length = 64 ∧
      ((firstPrimes 64 312).zip sha256K).all (fun pw => isRootFraction 3 pw.1 pw.2) = true := by
  decide

set_option maxRecDepth 100000 in
theorem sha256Init_square_roots :
    (firstPrimes 8 20).length = 8 ∧
      ((firstPrimes 8 20).zip [sha256Init.a, sha256Init.b, sha256Init.c, sha256Init.d,
        sha256Init.e, sha256Init.f, sha256Init.g, sha256Init.h]).all
        (fun pw => isRootFraction 2 pw.1 pw.2) = true := by
  decide

set_option maxRecDepth 100000 in
theorem sha256Sum_abc :
    hexEncodeToString (sha256Sum (stringBytes "abc")) =
      "ba7816bf8f01cfea414140de5dae2223b00361a396177a9cb410ff61f20015ad" := by
  decide

set_option maxRecDepth 100000 in
theorem sha256Sum_two_blocks :
    hexEncodeToString (sha256Sum (List.replicate 64 97)) =
      "ffe054fe7ae0cb6dc65c3af9b61d5209f439851db43d0ba5997337df154668eb" := by
  decide

theorem formatInt_examples :
    formatInt 0 = "0" ∧ formatInt 1234567890 = "1234567890" ∧
      formatInt (-9223372036854775808) = "-9223372036854775808" := by
  decide

theorem jsonMarshal_example :
    jsonMarshal ⟨"b<1>", "alice", "2024-01-01", false⟩ =
      "\x7b\"book_id\":\"b\\u003c1\\u003e\",\"user\":\"alice\"," ++
      "\"checkout_date\":\"2024-01-01\",\"is_genesis\":false\x7d" := by
  decide

/-! ## Arithmetic of Go `int` -/

theorem wrapInt64_wrapInt64_add (x y : Int) :
    wrapInt64 (wrapInt64 x + y) = wrapInt64 (x + y) := by
  unfold wrapInt64; omega

theorem wrapInt64_of_inRange (x : Int) (h1 : -9223372036854775808 ≤ x)
    (h2 : x < 9223372036854775808) : wrapInt64 x = x := by
  unfold wrapInt64; omega

theorem addInt64_one_of_lt (x : Int) (h1 : -9223372036854775808 ≤ x)
    (h2 : x < 9223372036854775807) : addInt64 x 1 = x + 1 := by
  unfold addInt64
  exact wrapInt64_of_inRange _ (by omega) (by omega)

theorem addInt64_one_max : addInt64 9223372036854775807 1 = -9223372036854775808 := by
  decide

/-! ## The fingerprint and the three checks -/

theorem generateHash_Hash (b : Block) :
    (generateHash b).Hash = fingerprint b.Index b.Timestamp b.Data b.PrevHash := rfl

theorem generateHash_generateHash (b : Block) :
    generateHash (generateHash b) = generateHash b := rfl

theorem generateHash_CreateBlock (t : Block) (d : BookCheckout) :
    generateHash (CreateBlock t d) = CreateBlock t d := rfl

theorem validBlock_CreateBlock (t : Block) (d : BookCheckout) :
    validBlock (CreateBlock t d) t = (true, CreateBlock t d) := by
  simp [validBlock, validateHash, CreateBlock, generateHash, hashInput]

theorem validBlock_fst_iff (c t : Block) :
    (validBlock c t).1 = true ↔ linked t c := by
  unfold validBlock linked validateHash
  by_cases h1 : addInt64 t.Index 1 = c.Index
  · by_cases h2 : t.Hash = c.PrevHash
    · rw [if_pos h1, if_pos h2]
      simp only [beq_iff_eq, generateHash_Hash]
      exact ⟨fun h => ⟨h1.symm, h2.symm, h⟩, fun h => h.2.2⟩
    · rw [if_pos h1, if_neg h2]
      exact ⟨fun h => absurd h Bool.false_ne_true, fun h => absurd h.2.1.symm h2⟩
  · rw [if_neg h1]
    exact ⟨fun h => absurd h Bool.false_ne_true, fun h => absurd h.1.symm h1⟩

theorem linked_CreateBlock (t : Block) (d : BookCheckout) : linked t (CreateBlock t d) :=
  ⟨rfl, rfl, rfl⟩

/-! ## `AddBlock` and runs of `AddBlock` -/

theorem getElem_length_sub_one (l : List Block) : l[l.length - 1]? = l.getLast? := by
  rw [List.getLast?_eq_getElem?]

theorem AddBlock_of_getLast (bc : Blockchain) (d : BookCheckout) (t : Block)
    (h : bc.blocks.getLast? = some t) :
    AddBlock bc d = some ⟨bc.blocks ++ [CreateBlock t d]⟩ := by
  unfold AddBlock
  rw [getElem_length_sub_one, h]
  simp [validBlock_CreateBlock]

theorem AddBlock_eq_appendIfValid (bc : Blockchain) (d : BookCheckout) :
    AddBlock bc d =
      (bc.blocks[bc.blocks.length - 1]?).map
        (fun t => appendIfValid bc (CreateBlock t d) t) := by
  unfold AddBlock appendIfValid
  cases bc.blocks[bc.blocks.length - 1]? with
  | none => rfl
  | some t => simp only [Option.map_some']; split <;> rfl

theorem addBlocks_eq (ds : List BookCheckout) : ∀ (bc : Blockchain) (t : Block),
    bc.blocks.getLast? = some t →
    addBlocks bc ds = some ⟨bc.blocks ++ growBlocks t ds⟩ := by
  induction ds with
  | nil => intro bc t _; simp [addBlocks, growBlocks]
  | cons d ds ih =>
    intro bc t h
    rw [addBlocks, AddBlock_of_getLast bc d t h]
    simp only [Option.some_bind]
    rw [ih ⟨bc.blocks ++ [CreateBlock t d]⟩ (CreateBlock t d) (by simp)]
    simp [growBlocks]

theorem length_growBlocks (ds : List BookCheckout) : ∀ t : Block,
    (growBlocks t ds).length = ds.length := by
  induction ds with
  | nil => intro t; rfl
  | cons d ds ih => intro t; simp [growBlocks, ih]

theorem chain_growBlocks (ds : List BookCheckout) : ∀ t : Block,
    List.Chain linked t (growBlocks t ds) := by
  induction ds with
  | nil => intro t; exact List.Chain.nil
  | cons d ds ih => intro t; exact List.Chain.cons (linked_CreateBlock t d) (ih _)

theorem Index_CreateBlock_of_lt (t : Block) (d : BookCheckout)
    (h1 : -9223372036854775808 ≤ t.Index) (h2 : t.Index < 9223372036854775807) :
    (CreateBlock t d).Index = t.Index + 1 :=
  addInt64_one_of_lt t.Index h1 h2

theorem chain_succ_growBlocks (ds : List BookCheckout) : ∀ t : Block,
    -9223372036854775808 ≤ t.Index → t.Index + ds.length < 9223372036854775808 →
    List.Chain (fun prev cur => cur.Index = prev.Index + 1) t (growBlocks t ds) := by
  induction ds with
  | nil => intro t _ _; exact List.Chain.nil
  | cons d ds ih =>
    intro t h1 h2
    simp only [List.length_cons, Nat.cast_add, Nat.cast_one] at h2
    have hi := Index_CreateBlock_of_lt t d h1 (by omega)
    exact List.Chain.cons hi (ih _ (by omega) (by omega))

theorem Index_growBlocks (ds : List BookCheckout) : ∀ (t : Block) (i : Nat)
    (h : i < (growBlocks t ds).length),
    ((growBlocks t ds)[i]).Index = wrapInt64 (t.Index + i + 1) := by
  induction ds with
  | nil => intro t i h; simp [growBlocks] at h
  | cons d ds ih =>
    intro t i h
    cases i with
    | zero => simp [growBlocks, CreateBlock, generateHash, addInt64]
    | succ i =>
      simp only [growBlocks, List.getElem_cons_succ]
      rw [ih]
      show wrapInt64 (wrapInt64 (t.Index + 1) + i + 1) = _
      rw [add_assoc, wrapInt64_wrapInt64_add]
      push_cast
      congr 1; ring

theorem Data_growBlocks (ds : List BookCheckout) : ∀ t : Block,
    (growBlocks t ds).map Block.Data = ds := by
  induction ds with
  | nil => intro t; rfl
  | cons d ds ih => intro t; simp [growBlocks, ih, CreateBlock, generateHash]

theorem getLast_NewBlockChain : NewBlockChain.blocks.getLast? = some GenesisBlock := rfl

theorem Index_GenesisBlock : GenesisBlock.Index = 1 := by decide

theorem addBlocks_NewBlockChain (ds : List BookCheckout) :
    addBlocks NewBlockChain ds = some ⟨GenesisBlock :: growBlocks GenesisBlock ds⟩ :=
  addBlocks_eq ds NewBlockChain GenesisBlock getLast_NewBlockChain

set_option maxRecDepth 100000 in
theorem GenesisBlock_eq : GenesisBlock = genesisRecord := by decide

set_option maxRecDepth 100000 in
theorem CreateBlock_genesisRecord : CreateBlock genesisRecord payloadB1 = secondRecord := by
  decide

/-! ## What `validBlock` leaves in the candidate -/

theorem validBlock_snd_fields (c t : Block) :
    (validBlock c t).2.Index = c.Index ∧ (validBlock c t).2.Timestamp = c.Timestamp ∧
    (validBlock c t).2.Data = c.Data ∧ (validBlock c t).2.PrevHash = c.PrevHash := by
  unfold validBlock validateHash
  split
  · split
    · exact ⟨rfl, rfl, rfl, rfl⟩
    · exact ⟨rfl, rfl, rfl, rfl⟩
  · exact ⟨rfl, rfl, rfl, rfl⟩

theorem validBlock_snd_of_true (c t : Block) (h : (validBlock c t).1 = true) :
    (validBlock c t).2 = c := by
  have hl := (validBlock_fst_iff c t).1 h
  unfold validBlock validateHash
  rw [if_pos hl.1.symm, if_pos hl.2.1.symm]
  show generateHash c = c
  cases c
  simp only [generateHash, Block.mk.injEq, true_and, and_true]
  exact hl.2.2



/-! ## The claims -/

/-- C1. Every chain reached from `NewBlockChain()` by a finite run of `AddBlock`
calls with arbitrary payloads exists (no call panics), and every adjacent pair
`(prev, cur)` of it passes the three extension checks: `cur.Index` is
`prev.Index + 1` (the `+` of Go `int`), `cur.PrevHash` is `prev.Hash`, and the
fingerprint recomputed from the Index, Timestamp, Data and PrevHash of `cur` is
`cur.Hash`; `validBlock cur prev` answers true on each pair. While the number of
records fits a Go `int`, `prev.Index + 1` is the ordinary successor. -/
theorem adjacent_pairs_pass_checks (ds : List BookCheckout) :
    ∃ bc, addBlocks NewBlockChain ds = some bc ∧
      List.Chain' linked bc.blocks ∧
      List.Chain' (fun prev cur => (validBlock cur prev).1 = true) bc.blocks ∧
      (ds.length + 1 < 9223372036854775808 →
        List.Chain' (fun prev cur => cur.Index = prev.Index + 1) bc.blocks) := by
  refine ⟨_, addBlocks_NewBlockChain ds, ?_, ?_, ?_⟩
  · exact chain_growBlocks ds GenesisBlock
  · refine List.Chain'.imp ?_ (chain_growBlocks ds GenesisBlock)
    intro prev cur h
    exact (validBlock_fst_iff cur prev).2 h
  · intro h
    refine chain_succ_growBlocks ds GenesisBlock (by rw [Index_GenesisBlock]; decide) ?_
    rw [Index_GenesisBlock]
    omega

theorem adjacent_pairs_pass_checks_witness :
    [payloadB1, payloadFlagged].length + 1 < 9223372036854775808 ∧
    ∃ bc, addBlocks NewBlockChain [payloadB1, payloadFlagged] = some bc ∧
      List.Chain' linked bc.blocks ∧
      List.Chain' (fun prev cur => cur.Index = prev.Index + 1) bc.blocks := by
  obtain ⟨bc, h, h1, _, h3⟩ := adjacent_pairs_pass_checks [payloadB1, payloadFlagged]
  exact ⟨by decide, bc, h, h1, h3 (by decide)⟩

/-- C2. The candidate that `CreateBlock` builds from a tail always passes
`validBlock` against that tail and is left as built, also when `Index + 1` wraps
around from the largest `int` to the smallest. So on every non-empty chain and
for every payload `AddBlock` finds the tail in range and appends exactly that
one record, and `N` calls of `AddBlock` from `NewBlockChain()` give a chain of
length `N + 1`, which is never empty and whose tail lookup is in range. -/
theorem AddBlock_appends_exactly_one :
    (∀ (t : Block) (d : BookCheckout),
        validBlock (CreateBlock t d) t = (true, CreateBlock t d)) ∧
    (∀ d : BookCheckout,
        (CreateBlock lastIndexRecord d).Index = -9223372036854775808 ∧
        (validBlock (CreateBlock lastIndexRecord d) lastIndexRecord).1 = true) ∧
    (∀ (bc : Blockchain) (d : BookCheckout), bc.blocks ≠ [] →
        ∃ t, bc.blocks[bc.blocks.length - 1]? = some t ∧
          AddBlock bc d = some ⟨bc.blocks ++ [CreateBlock t d]⟩ ∧
          (bc.blocks ++ [CreateBlock t d]).length = bc.blocks.length + 1) ∧
    (∀ ds : List BookCheckout, ∃ bc, addBlocks NewBlockChain ds = some bc ∧
        bc.blocks.length = ds.length + 1 ∧ bc.blocks ≠ [] ∧
        bc.blocks[bc.blocks.length - 1]? ≠ none) := by
  refine ⟨validBlock_CreateBlock, ?_, ?_, ?_⟩
  · intro d
    exact ⟨addInt64_one_max, by rw [validBlock_CreateBlock]⟩
  · intro bc d hne
    obtain ⟨t, ht⟩ := Option.isSome_iff_exists.1
      (by rw [List.getLast?_isSome]; exact hne : (bc.blocks.getLast?).isSome = true)
    exact ⟨t, by rw [getElem_length_sub_one, ht], AddBlock_of_getLast bc d t ht, by simp⟩
  · intro ds
    refine ⟨_, addBlocks_NewBlockChain ds, by simp [length_growBlocks], by simp, ?_⟩
    rw [getElem_length_sub_one]
    simp [List.getLast?_eq_none_iff]

theorem AddBlock_appends_exactly_one_witness :
    NewBlockChain.blocks ≠ [] ∧
    ∃ t, NewBlockChain.blocks[NewBlockChain.blocks.length - 1]? = some t ∧
      AddBlock NewBlockChain payloadB1 =
        some ⟨NewBlockChain.blocks ++ [CreateBlock t payloadB1]⟩ ∧
      (NewBlockChain.blocks ++ [CreateBlock t payloadB1]).length =
        NewBlockChain.blocks.length + 1 :=
  ⟨List.cons_ne_nil _ _,
   AddBlock_appends_exactly_one.2.2.1 NewBlockChain payloadB1 (List.cons_ne_nil _ _)⟩

/-- C3. For every candidate `c` and tail `t`, `validBlock(c, t)` returns true if
and only if `c.Index` is `t.Index + 1` (the `+` of Go `int`), `c.PrevHash` is
`t.Hash`, and the fingerprint recomputed from the Index, Timestamp, Data and
PrevHash stored in `c` equals the Hash that `c` carried when `validBlock` was
called. For a tail below the largest `int` the first check is the ordinary
`c.Index = t.Index + 1`. -/
theorem validBlock_true_iff :
    (∀ c t : Block, (validBlock c t).1 = true ↔
      c.Index = addInt64 t.Index 1 ∧ c.PrevHash = t.Hash ∧
      hexEncodeToString (sha256Sum (stringBytes
        (formatInt c.Index ++ c.Timestamp ++ jsonMarshal c.Data ++ c.PrevHash))) = c.Hash) ∧
    (∀ c t : Block, -9223372036854775808 ≤ t.Index → t.Index < 9223372036854775807 →
      ((validBlock c t).1 = true ↔
        c.Index = t.Index + 1 ∧ c.PrevHash = t.Hash ∧
        fingerprint c.Index c.Timestamp c.Data c.PrevHash = c.Hash)) := by
  refine ⟨fun c t => validBlock_fst_iff c t, ?_⟩
  intro c t h1 h2
  rw [validBlock_fst_iff, linked, addInt64_one_of_lt t.Index h1 h2]

set_option maxRecDepth 100000 in
theorem validBlock_true_iff_witness :
    (-9223372036854775808 ≤ genesisRecord.Index ∧
      genesisRecord.Index < 9223372036854775807) ∧
    (validBlock secondRecord genesisRecord).1 = true ∧
    (validBlock tamperedCandidate genesisRecord).1 = false := by
  refine ⟨by decide, ?_, ?_⟩
  · exact (validBlock_true_iff.2 secondRecord genesisRecord (by decide) (by decide)).2
      (by decide)
  · cases h : (validBlock tamperedCandidate genesisRecord).1 with
    | false => rfl
    | true =>
      have h3 := ((validBlock_true_iff.2 tamperedCandidate genesisRecord
        (by decide) (by decide)).1 h).2.2
      exact absurd h3 (by decide)

set_option maxRecDepth 100000 in
/-- C4. On the failing input `validBlock` is not pure. The candidate
`tamperedCandidate` (Index 2, PrevHash the Hash of the genesis record, Hash
`"forged"`) passes the two linkage checks against `genesisRecord`, so
`validateHash` runs `generateHash` on it: the verdict is false and the call
leaves the candidate with Hash `83f1...011d`, the recomputed fingerprint, in
place of `"forged"`. -/
theorem validBlock_overwrites_candidate_Hash :
    validBlock tamperedCandidate genesisRecord = (false, secondRecord) ∧
    tamperedCandidate.Hash = "forged" ∧
    (validBlock tamperedCandidate genesisRecord).2.Hash =
      "83f169f573e7d5455ad0cd7bf8fea227d7b2f02c698df41daa02018de79f011d" ∧
    (validBlock tamperedCandidate genesisRecord).2 ≠ tamperedCandidate := by
  decide

/-- C5. For every predecessor `p` and payload `d` the record `r = CreateBlock(p, d)`
has `r.Index = p.Index + 1` (the `+` of Go `int`; the ordinary successor when
`p.Index` is below the largest `int`), `r.PrevHash = p.Hash`, `r.Data = d`, and
`r.Hash` the hex SHA-256 of the decimal Index, then Timestamp, then JSON of Data,
then PrevHash of `r` itself; recomputing the fingerprint from the stored fields
of `r` gives `r.Hash` again, and `validateHash` accepts it. -/
theorem CreateBlock_fields :
    (∀ (p : Block) (d : BookCheckout),
      (CreateBlock p d).Index = addInt64 p.Index 1 ∧
      (CreateBlock p d).PrevHash = p.Hash ∧
      (CreateBlock p d).Data = d ∧
      (CreateBlock p d).Hash = hexEncodeToString (sha256Sum (stringBytes
        (formatInt (CreateBlock p d).Index ++ (CreateBlock p d).Timestamp ++
          jsonMarshal (CreateBlock p d).Data ++ (CreateBlock p d).PrevHash))) ∧
      (CreateBlock p d).Hash = fingerprint (CreateBlock p d).Index (CreateBlock p d).Timestamp
        (CreateBlock p d).Data (CreateBlock p d).PrevHash ∧
      (generateHash (CreateBlock p d)).Hash = (CreateBlock p d).Hash ∧
      (validateHash (CreateBlock p d) (CreateBlock p d).Hash).1 = true) ∧
    (∀ (p : Block) (d : BookCheckout),
      -9223372036854775808 ≤ p.Index → p.Index < 9223372036854775807 →
      (CreateBlock p d).Index = p.Index + 1) := by
  refine ⟨fun p d => ⟨rfl, rfl, rfl, rfl, rfl, rfl, ?_⟩, fun p d h1 h2 =>
    Index_CreateBlock_of_lt p d h1 h2⟩
  simp [validateHash, generateHash_CreateBlock]

theorem CreateBlock_fields_witness :
    (-9223372036854775808 ≤ genesisRecord.Index ∧
      genesisRecord.Index < 9223372036854775807) ∧
    (CreateBlock genesisRecord payloadB1).Index = genesisRecord.Index + 1 :=
  ⟨by decide, CreateBlock_fields.2 genesisRecord payloadB1 (by decide) (by decide)⟩

set_option maxRecDepth 100000 in
/-- C6. `NewBlockChain()` is a chain of exactly one record, the genesis record.
Its payload has `is_genesis = true` and empty book, user and date; its
predecessor fingerprint is the empty string; its own fingerprint is the value of
the same fingerprint function as for any other record on its own fields (and
recomputing it reproduces it), namely `a8d8...8cf8`. -/
theorem NewBlockChain_single_genesis :
    NewBlockChain.blocks = [GenesisBlock] ∧
    NewBlockChain.blocks.length = 1 ∧
    GenesisBlock.Data = ⟨"", "", "", true⟩ ∧
    GenesisBlock.PrevHash = "" ∧
    GenesisBlock.Hash = fingerprint GenesisBlock.Index GenesisBlock.Timestamp
      GenesisBlock.Data GenesisBlock.PrevHash ∧
    (generateHash GenesisBlock).Hash = GenesisBlock.Hash ∧
    GenesisBlock.Hash = "a8d8441bccc07e5441f62d271e2bc2c671e16bc52edd365c53dc6d7687178cf8" := by
  refine ⟨rfl, rfl, rfl, rfl, rfl, rfl, ?_⟩
  decide

set_option maxRecDepth 100000 in
/-- C7, as stated, fails: `GenesisBlock()` adds 1 to the Index 0 of the zero-value
predecessor, so the genesis record has Index 1, not 0, and after one `AddBlock`
the Index values along the chain are 1, 2 (so `chain[1].Index` is 2, not 1). -/
theorem genesis_Index_not_zero :
    GenesisBlock.Index = 1 ∧ GenesisBlock.Index ≠ 0 ∧
    NewBlockChain.blocks.map Block.Index = [1] ∧
    (addBlocks NewBlockChain [payloadB1]).map (fun bc => bc.blocks.map Block.Index) =
      some [1, 2] := by
  decide

/-- C7, amended. Positions are numbered from 1: the genesis record has Index 1,
and after `N` calls of `AddBlock` on a new chain there are `N + 1` records and
the record at sequence offset `i` has Index `i + 1` wrapped to a Go `int`, which
is `i + 1` itself for every `i` in `0..N` as long as `N + 1` is below `2^63`. -/
theorem positions_numbered_from_one (ds : List BookCheckout) :
    GenesisBlock.Index = 1 ∧
    ∃ bc, addBlocks NewBlockChain ds = some bc ∧ bc.blocks.length = ds.length + 1 ∧
      (∀ (i : Nat) (h : i < bc.blocks.length), (bc.blocks[i]).Index = wrapInt64 (i + 1)) ∧
      (ds.length + 1 < 9223372036854775808 →
        ∀ (i : Nat) (h : i < bc.blocks.length), (bc.blocks[i]).Index = i + 1) := by
  have hw : ∀ (i : Nat) (h : i < (GenesisBlock :: growBlocks GenesisBlock ds).length),
      ((GenesisBlock :: growBlocks GenesisBlock ds)[i]).Index = wrapInt64 (i + 1) := by
    intro i h
    cases i with
    | zero =>
      simp only [List.getElem_cons_zero]
      rw [Index_GenesisBlock]
      decide
    | succ i =>
      simp only [List.getElem_cons_succ]
      rw [Index_growBlocks, Index_GenesisBlock]
      push_cast
      congr 1; ring
  refine ⟨Index_GenesisBlock, _, addBlocks_NewBlockChain ds,
    by simp [length_growBlocks], hw, ?_⟩
  intro hlen i h
  rw [hw i h]
  have hi : i < ds.length + 1 := by simpa [length_growBlocks] using h
  exact wrapInt64_of_inRange _ (by omega) (by omega)

theorem positions_numbered_from_one_witness :
    [payloadB1].length + 1 < 9223372036854775808 ∧
    ∃ bc, addBlocks NewBlockChain [payloadB1] = some bc ∧
      (bc.blocks[0]?).map Block.Index = some 1 ∧ (bc.blocks[1]?).map Block.Index = some 2 := by
  obtain ⟨_, bc, h, hl, _, hi⟩ := positions_numbered_from_one [payloadB1]
  have h0 : 0 < bc.blocks.length := by rw [hl]; decide
  have h1 : 1 < bc.blocks.length := by rw [hl]; decide
  refine ⟨by decide, bc, h, ?_, ?_⟩
  · rw [List.getElem?_eq_getElem h0, Option.map_some', hi (by decide) 0 h0]; rfl
  · rw [List.getElem?_eq_getElem h1, Option.map_some', hi (by decide) 1 h1]; rfl

set_option maxRecDepth 100000 in
/-- C8. On the failing input the invariant breaks: `writeBlock` hands the
payload decoded from a body with `"is_genesis": true` to `AddBlock`, which
appends it as it is, so a new chain then holds two records with
`is_genesis = true`, the genesis record and the appended one. -/
theorem writeBlock_appends_flagged_record :
    payloadFlagged.IsGenesis = true ∧
    (writeBlock NewBlockChain (some payloadFlagged)).map
      (fun bc => bc.blocks.map (fun b => b.Data.IsGenesis)) = some [true, true] := by
  decide

/-- The `is_genesis` flags along a chain built by `AddBlock` calls: the flag of
the genesis record, then the flag of each payload as it was given. When every
payload has `is_genesis = false` the genesis record is the only flagged one. -/
theorem IsGenesis_along_chain :
    (∀ ds : List BookCheckout, ∃ bc, addBlocks NewBlockChain ds = some bc ∧
      bc.blocks.map (fun b => b.Data.IsGenesis) = true :: ds.map BookCheckout.IsGenesis) ∧
    (∀ ds : List BookCheckout, (∀ d ∈ ds, d.IsGenesis = false) →
      ∃ bc, addBlocks NewBlockChain ds = some bc ∧
        bc.blocks.map (fun b => b.Data.IsGenesis) = true :: List.replicate ds.length false ∧
        (bc.blocks.filter (fun b => b.Data.IsGenesis)).length = 1) := by
  have key : ∀ ds : List BookCheckout,
      (GenesisBlock :: growBlocks GenesisBlock ds).map (fun b => b.Data.IsGenesis) =
        true :: ds.map BookCheckout.IsGenesis := by
    intro ds
    have h := congrArg (List.map BookCheckout.IsGenesis) (Data_growBlocks ds GenesisBlock)
    rw [List.map_map] at h
    rw [List.map_cons, ← h]
    rfl
  refine ⟨fun ds => ⟨_, addBlocks_NewBlockChain ds, key ds⟩, ?_⟩
  intro ds hds
  have hrep : ds.map BookCheckout.IsGenesis = List.replicate ds.length false := by
    rw [List.eq_replicate_iff]
    refine ⟨by simp, ?_⟩
    intro b hb
    obtain ⟨d, hd, rfl⟩ := List.mem_map.1 hb
    exact hds d hd
  refine ⟨_, addBlocks_NewBlockChain ds, by rw [key, hrep], ?_⟩
  have hf : ∀ l : List Block, (l.filter (fun b => b.Data.IsGenesis)).length =
      ((l.map (fun b => b.Data.IsGenesis)).filter id).length := by
    intro l
    rw [List.filter_map, List.length_map]
    rfl
  rw [hf, key, hrep]
  simp [List.filter_cons, List.filter_replicate]

/-- C9. Rejection containment: whatever the chain `bc` and the record `t` (its
tail in particular), a candidate `c` whose PrevHash differs from `t.Hash` is
refused by `validBlock(c, t)`, whatever its other fields, and the append step of
`AddBlock` guarded by that verdict (`appendIfValid`, see
`AddBlock_eq_appendIfValid`) leaves the chain, its sequence and its length as
they were. -/
theorem forged_PrevHash_rejected (bc : Blockchain) (c t : Block) (h : c.PrevHash ≠ t.Hash) :
    (validBlock c t).1 = false ∧
    appendIfValid bc c t = bc ∧
    (appendIfValid bc c t).blocks = bc.blocks ∧
    (appendIfValid bc c t).blocks.length = bc.blocks.length := by
  have hv : (validBlock c t).1 = false := by
    cases hb : (validBlock c t).1 with
    | false => rfl
    | true => exact absurd ((validBlock_fst_iff c t).1 hb).2.1 h
  have ha : appendIfValid bc c t = bc := by
    unfold appendIfValid
    simp [hv]
  exact ⟨hv, ha, by rw [ha], by rw [ha]⟩

set_option maxRecDepth 100000 in
theorem forged_PrevHash_rejected_witness :
    forgedLinkCandidate.PrevHash ≠ genesisRecord.Hash ∧
    forgedLinkCandidate.Index = addInt64 genesisRecord.Index 1 ∧
    (generateHash forgedLinkCandidate).Hash = forgedLinkCandidate.Hash ∧
    ((validBlock forgedLinkCandidate genesisRecord).1 = false ∧
      appendIfValid ⟨[genesisRecord]⟩ forgedLinkCandidate genesisRecord = ⟨[genesisRecord]⟩ ∧
      (appendIfValid ⟨[genesisRecord]⟩ forgedLinkCandidate genesisRecord).blocks =
        [genesisRecord] ∧
      (appendIfValid ⟨[genesisRecord]⟩ forgedLinkCandidate genesisRecord).blocks.length = 1) :=
  ⟨by decide, by decide, rfl,
    forged_PrevHash_rejected ⟨[genesisRecord]⟩ forgedLinkCandidate genesisRecord (by decide)⟩

/-- C10. The chain is append-only: on a non-empty chain `AddBlock` returns a
chain of which the old sequence is a prefix, in the same order; every record
accepted before, the tail that `CreateBlock` and `validBlock` read included, is
found at its old offset with all its fields as they were. The same holds after
any run of `AddBlock` calls. -/
theorem AddBlock_append_only (bc : Blockchain) (d : BookCheckout) (h : bc.blocks ≠ []) :
    (∃ bc1, AddBlock bc d = some bc1 ∧
      bc.blocks <+: bc1.blocks ∧
      bc1.blocks.take bc.blocks.length = bc.blocks ∧
      (∀ (i : Nat) (hi : i < bc.blocks.length), bc1.blocks[i]? = some bc.blocks[i]) ∧
      bc1.blocks[bc.blocks.length - 1]? = bc.blocks.getLast?) ∧
    (∀ ds : List BookCheckout, ∃ bc2, addBlocks bc ds = some bc2 ∧
      bc.blocks <+: bc2.blocks) := by
  obtain ⟨t, ht⟩ := Option.isSome_iff_exists.1
    (by rw [List.getLast?_isSome]; exact h : (bc.blocks.getLast?).isSome = true)
  have hpos : 0 < bc.blocks.length := List.length_pos.2 h
  refine ⟨⟨_, AddBlock_of_getLast bc d t ht, List.prefix_append _ _, by simp, ?_, ?_⟩,
    fun ds => ⟨_, addBlocks_eq ds bc t ht, List.prefix_append _ _⟩⟩
  · intro i hi
    show (bc.blocks ++ [CreateBlock t d])[i]? = _
    rw [List.getElem?_append_left hi, List.getElem?_eq_getElem hi]
  · show (bc.blocks ++ [CreateBlock t d])[bc.blocks.length - 1]? = _
    rw [List.getElem?_append_left (by omega), getElem_length_sub_one]

theorem AddBlock_append_only_witness :
    NewBlockChain.blocks ≠ [] ∧
    ∃ bc1, AddBlock NewBlockChain payloadB1 = some bc1 ∧
      NewBlockChain.blocks <+: bc1.blocks ∧
      bc1.blocks[0]? = some GenesisBlock :=
  ⟨List.cons_ne_nil _ _, by
    obtain ⟨⟨bc1, h1, h2, _, h4, _⟩, _⟩ :=
      AddBlock_append_only NewBlockChain payloadB1 (List.cons_ne_nil _ _)
    exact ⟨bc1, h1, h2, h4 0 (by decide)⟩⟩

/-! ## Further lemmas -/

/-! ## Test vectors for MD5 -/

set_option maxRecDepth 100000 in
theorem md5Sum_abc :
    hexEncodeToString (md5Sum (stringBytes "")) = "d41d8cd98f00b204e9800998ecf8427e" ∧
    hexEncodeToString (md5Sum (stringBytes "abc")) = "900150983cd24fb0d6963f7d28e17f72" := by
  decide

set_option maxRecDepth 100000 in
theorem md5Sum_two_blocks :
    hexEncodeToString (md5Sum (List.replicate 64 97)) = "014842d480b571495a4a0363793f7367" := by
  decide

/-! ## Shape of the digests -/

theorem length_flatMap_hexByte (bs : List Nat) : (bs.flatMap hexByte).length = 2 * bs.length := by
  induction bs with
  | nil => rfl
  | cons b bs ih => simp [List.flatMap_cons, hexByte, ih]; omega

theorem length_hexEncodeToString (bs : List Nat) :
    (hexEncodeToString bs).length = 2 * bs.length := by
  show (bs.flatMap hexByte).length = 2 * bs.length
  exact length_flatMap_hexByte bs

theorem hexDigit_mem (d : Nat) (h : d < 16) : hexDigit d ∈ "0123456789abcdef".data := by
  interval_cases d <;> decide

theorem hexEncodeToString_mem (bs : List Nat) :
    ∀ c ∈ (hexEncodeToString bs).data, c ∈ "0123456789abcdef".data := by
  intro c hc
  simp only [hexEncodeToString, List.mem_flatMap, hexByte] at hc
  obtain ⟨b, _, hb⟩ := hc
  simp only [List.mem_cons, List.mem_singleton, List.not_mem_nil, or_false] at hb
  rcases hb with rfl | rfl
  · exact hexDigit_mem _ (Nat.mod_lt _ (by decide))
  · exact hexDigit_mem _ (Nat.mod_lt _ (by decide))

theorem length_sha256Sum (msg : List Nat) : (sha256Sum msg).length = 32 := by
  simp [sha256Sum, sha256Digest, wordBytes]

theorem sha256Sum_lt (msg : List Nat) : ∀ b ∈ sha256Sum msg, b < 256 := by
  intro b hb
  simp only [sha256Sum, sha256Digest, wordBytes, List.mem_append, List.mem_cons,
    List.mem_singleton, List.not_mem_nil, or_false] at hb
  rcases hb with ((((((h | h) | h) | h) | h) | h) | h) | h <;>
    rcases h with rfl | rfl | rfl | rfl <;> exact Nat.mod_lt _ (by decide)

theorem length_md5Sum (msg : List Nat) : (md5Sum msg).length = 16 := by
  simp [md5Sum, md5Digest, wordBytesLE]

theorem length_fingerprint (i : Int) (ts : String) (d : BookCheckout) (p : String) :
    (fingerprint i ts d p).length = 64 := by
  rw [fingerprint, length_hexEncodeToString, length_sha256Sum]

/-! ## Repeated validation, and what a run of `AddBlock` keeps -/

theorem validBlock_second_call (c t : Block) (h1 : c.Index = addInt64 t.Index 1)
    (h2 : c.PrevHash = t.Hash) :
    (validBlock (validBlock c t).2 t).1 = true := by
  have e : (validBlock c t).2 = generateHash c := by
    unfold validBlock validateHash
    rw [if_pos h1.symm, if_pos h2.symm]
  rw [e, validBlock_fst_iff]
  exact ⟨h1, h2, rfl⟩

theorem growBlocks_hash_lengths (ds : List BookCheckout) : ∀ t : Block, t.Hash.length = 64 →
    ∀ b ∈ growBlocks t ds, b.PrevHash.length = 64 ∧ b.Hash.length = 64 := by
  induction ds with
  | nil => intro t _ b hb; simp [growBlocks] at hb
  | cons d ds ih =>
    intro t ht b hb
    have hc : (CreateBlock t d).Hash.length = 64 := length_fingerprint _ _ _ _
    simp only [growBlocks, List.mem_cons] at hb
    rcases hb with rfl | hb
    · exact ⟨ht, hc⟩
    · exact ih _ hc b hb

theorem growBlocks_Timestamp (ds : List BookCheckout) : ∀ t : Block,
    ∀ b ∈ growBlocks t ds, b.Timestamp = "now" := by
  induction ds with
  | nil => intro t b hb; simp [growBlocks] at hb
  | cons d ds ih =>
    intro t b hb
    simp only [growBlocks, List.mem_cons] at hb
    rcases hb with rfl | hb
    · rfl
    · exact ih _ b hb

/-! ## Codes read from left to right -/

theorem Char_eq_of_toNat_eq {c d : Char} (h : c.toNat = d.toNat) : c = d := by
  rw [← Char.ofNat_toNat c, ← Char.ofNat_toNat d, h]

theorem Char_toNat_lt (c : Char) : c.toNat < 1114112 := by
  have h := c.valid
  simp only [UInt32.isValidChar, Nat.isValidChar] at h
  show c.val.toNat < 1114112
  omega

/-- A code in which no code word is a proper beginning of another is uniquely
decodable: `flatMap` of it is injective. -/
theorem flatMap_injective_of_prefixFree {α β : Type} (f : α → List β)
    (hne : ∀ a, f a ≠ [])
    (hpf : ∀ a a1 l l1, f a ++ l = f a1 ++ l1 → a = a1 ∧ l = l1) :
    ∀ xs ys : List α, xs.flatMap f = ys.flatMap f → xs = ys := by
  intro xs
  induction xs with
  | nil =>
    intro ys h
    cases ys with
    | nil => rfl
    | cons y ys =>
      simp only [List.flatMap_nil, List.flatMap_cons] at h
      exact absurd (List.append_eq_nil.1 h.symm).1 (hne y)
  | cons x xs ih =>
    intro ys h
    cases ys with
    | nil =>
      simp only [List.flatMap_nil, List.flatMap_cons] at h
      exact absurd (List.append_eq_nil.1 h).1 (hne x)
    | cons y ys =>
      simp only [List.flatMap_cons] at h
      obtain ⟨rfl, h2⟩ := hpf _ _ _ _ h
      rw [ih ys h2]

/-- The same with an end mark `q` that starts no code word: the coded part and
what follows the end mark are both determined. -/
theorem flatMap_terminated {α β : Type} (f : α → List β) (q : β)
    (hq : ∀ a, ∃ h t, f a = h :: t ∧ h ≠ q)
    (hpf : ∀ a a1 l l1, f a ++ l = f a1 ++ l1 → a = a1 ∧ l = l1) :
    ∀ (xs ys : List α) (r r1 : List β),
      xs.flatMap f ++ q :: r = ys.flatMap f ++ q :: r1 → xs = ys ∧ r = r1 := by
  intro xs
  induction xs with
  | nil =>
    intro ys r r1 h
    cases ys with
    | nil =>
      simp only [List.flatMap_nil, List.nil_append, List.cons.injEq, true_and] at h
      exact ⟨rfl, h⟩
    | cons y ys =>
      obtain ⟨hd, tl, hy, hne⟩ := hq y
      simp only [List.flatMap_nil, List.nil_append, List.flatMap_cons, hy, List.cons_append,
        List.cons.injEq] at h
      exact absurd h.1.symm hne
  | cons x xs ih =>
    intro ys r r1 h
    cases ys with
    | nil =>
      obtain ⟨hd, tl, hx, hne⟩ := hq x
      simp only [List.flatMap_nil, List.nil_append, List.flatMap_cons, hx, List.cons_append,
        List.cons.injEq] at h
      exact absurd h.1 hne
    | cons y ys =>
      simp only [List.flatMap_cons, List.append_assoc] at h
      obtain ⟨rfl, h2⟩ := hpf _ _ _ _ h
      obtain ⟨rfl, h3⟩ := ih ys r r1 h2
      exact ⟨rfl, h3⟩

/-! ## UTF-8 and hexadecimal are injective -/

theorem utf8Bytes_ne_nil (c : Char) : utf8Bytes c ≠ [] := by
  unfold utf8Bytes
  simp only []
  split_ifs <;> simp

theorem utf8Bytes_prefixFree (c d : Char) (l l1 : List Nat)
    (h : utf8Bytes c ++ l = utf8Bytes d ++ l1) : c = d ∧ l = l1 := by
  have hc := Char_toNat_lt c
  have hd := Char_toNat_lt d
  unfold utf8Bytes at h
  simp only [] at h
  split_ifs at h <;>
    simp only [List.cons_append, List.nil_append, List.cons.injEq] at h <;>
    first
      | (exfalso; omega)
      | (refine ⟨Char_eq_of_toNat_eq (by omega), ?_⟩; simp only [h])

theorem stringBytes_injective (s t : String) (h : stringBytes s = stringBytes t) : s = t :=
  String.ext (flatMap_injective_of_prefixFree utf8Bytes utf8Bytes_ne_nil
    utf8Bytes_prefixFree s.data t.data h)

theorem hexDigit_inj (d e : Nat) (hd : d < 16) (he : e < 16) (h : hexDigit d = hexDigit e) :
    d = e := by
  interval_cases d <;> interval_cases e <;> first | rfl | exact absurd h (by decide)

theorem hexEncodeToString_injective : ∀ bs cs : List Nat,
    (∀ b ∈ bs, b < 256) → (∀ c ∈ cs, c < 256) →
    hexEncodeToString bs = hexEncodeToString cs → bs = cs := by
  intro bs
  induction bs with
  | nil =>
    intro cs _ _ h
    cases cs with
    | nil => rfl
    | cons c cs => exact absurd (congrArg String.data h) (by simp [hexEncodeToString, hexByte])
  | cons b bs ih =>
    intro cs hb hc h
    cases cs with
    | nil => exact absurd (congrArg String.data h) (by simp [hexEncodeToString, hexByte])
    | cons c cs =>
      have h1 := congrArg String.data h
      simp only [hexEncodeToString, List.flatMap_cons, hexByte, List.cons_append,
        List.nil_append, List.cons.injEq] at h1
      have e1 := hexDigit_inj _ _ (Nat.mod_lt _ (by decide)) (Nat.mod_lt _ (by decide)) h1.1
      have e2 := hexDigit_inj _ _ (Nat.mod_lt _ (by decide)) (Nat.mod_lt _ (by decide)) h1.2.1
      have hb0 := hb b (List.mem_cons_self _ _)
      have hc0 := hc c (List.mem_cons_self _ _)
      have ebc : b = c := by omega
      have := ih cs (fun x hx => hb x (List.mem_cons_of_mem _ hx))
        (fun x hx => hc x (List.mem_cons_of_mem _ hx)) (String.ext h1.2.2)
      rw [ebc, this]

/-! ## `json.Marshal` can be read back -/

theorem hexValue_hexDigit (d : Nat) (h : d < 16) : hexValue (hexDigit d) = d := by
  interval_cases d <;> rfl

theorem jsonUnescapeHead_jsonEscape (c : Char) (l : List Char) :
    jsonUnescapeHead (jsonEscape c ++ l) = some (c, l) := by
  have hc := Char.ofNat_toNat c
  unfold jsonEscape
  simp only []
  split_ifs with h1 h2 h3 h4 h5 h6 h7 h8
  · rcases h1 with h | h <;> simp [jsonUnescapeHead, h]
  · simp [jsonUnescapeHead]; rw [← h2, hc]
  · simp [jsonUnescapeHead]; rw [← h3, hc]
  · simp [jsonUnescapeHead]; rw [← h4, hc]
  · simp [jsonUnescapeHead]; rw [← h5, hc]
  · simp [jsonUnescapeHead]; rw [← h6, hc]
  · have hv : c.toNat < 64 := by omega
    have e1 := hexValue_hexDigit (c.toNat / 16) (by omega)
    have e2 := hexValue_hexDigit (c.toNat % 16) (by omega)
    have e0 : hexValue '0' = 0 := rfl
    simp only [jsonUnescapeHead, List.cons_append, List.nil_append]
    simp only [e0, e1, e2]
    have t : c.toNat / 16 * 16 + c.toNat % 16 = c.toNat := by omega
    simp [t, hc]
  · have e2 := hexValue_hexDigit (c.toNat % 16) (by omega)
    have e0 : hexValue '0' = 0 := rfl
    have e3 : hexValue '2' = 2 := rfl
    simp only [jsonUnescapeHead, List.cons_append, List.nil_append]
    simp only [e0, e2, e3]
    have : 2 * 4096 + 0 * 256 + 2 * 16 + c.toNat % 16 = c.toNat := by omega
    simp [this]
  · have : c.toNat ≠ 92 := fun h => h1 (Or.inr h)
    simp [jsonUnescapeHead, this]

theorem jsonEscape_prefixFree (c d : Char) (l l1 : List Char)
    (h : jsonEscape c ++ l = jsonEscape d ++ l1) : c = d ∧ l = l1 := by
  have h1 := jsonUnescapeHead_jsonEscape c l
  rw [h, jsonUnescapeHead_jsonEscape d l1] at h1
  have h2 := Option.some.inj h1
  exact ⟨(congrArg Prod.fst h2).symm, (congrArg Prod.snd h2).symm⟩

theorem jsonEscape_head (c : Char) : ∃ h t, jsonEscape c = h :: t ∧ h ≠ Char.ofNat 34 := by
  unfold jsonEscape
  simp only []
  split_ifs with h1 <;>
    first
      | exact ⟨_, _, rfl, by decide⟩
      | exact ⟨_, _, rfl, fun h => h1 (Or.inl (by rw [h]; rfl))⟩

theorem jsonString_data (s : String) :
    (jsonString s).data = Char.ofNat 34 :: (s.data.flatMap jsonEscape ++ [Char.ofNat 34]) := rfl

theorem jsonString_prefixFree (s t : String) (r r1 : List Char)
    (h : (jsonString s).data ++ r = (jsonString t).data ++ r1) : s = t ∧ r = r1 := by
  simp only [jsonString_data, List.cons_append, List.append_assoc, List.nil_append,
    List.cons.injEq, true_and] at h
  obtain ⟨h1, h2⟩ := flatMap_terminated jsonEscape (Char.ofNat 34) jsonEscape_head
    jsonEscape_prefixFree s.data t.data r r1 h
  exact ⟨String.ext h1, h2⟩

theorem jsonBool_prefixFree (x y : Bool) (r r1 : List Char)
    (h : (jsonBool x).data ++ (Char.ofNat 125 :: r) = (jsonBool y).data ++ (Char.ofNat 125 :: r1)) :
    x = y ∧ r = r1 := by
  cases x <;> cases y
  · exact ⟨rfl, by simpa [jsonBool] using h⟩
  · exact absurd h (by simp [jsonBool])
  · exact absurd h (by simp [jsonBool])
  · exact ⟨rfl, by simpa [jsonBool] using h⟩

theorem jsonMarshal_data (d : BookCheckout) :
    (jsonMarshal d).data =
      "\x7b\"book_id\":".data ++ ((jsonString d.BookID).data ++
      (",\"user\":".data ++ ((jsonString d.User).data ++
      (",\"checkout_date\":".data ++ ((jsonString d.CheckOutDate).data ++
      (",\"is_genesis\":".data ++ ((jsonBool d.IsGenesis).data ++ [Char.ofNat 125]))))))) := by
  simp only [jsonMarshal, String.data_append, List.append_assoc]

/-- The JSON of a payload can be read off the front of any text that starts with it. -/
theorem jsonMarshal_prefixFree (d e : BookCheckout) (r r1 : List Char)
    (h : (jsonMarshal d).data ++ r = (jsonMarshal e).data ++ r1) : d = e ∧ r = r1 := by
  simp only [jsonMarshal_data, List.append_assoc] at h
  have h1 := jsonString_prefixFree _ _ _ _ (List.append_cancel_left h)
  have h2 := jsonString_prefixFree _ _ _ _ (List.append_cancel_left h1.2)
  have h3 := jsonString_prefixFree _ _ _ _ (List.append_cancel_left h2.2)
  have h4 := jsonBool_prefixFree _ _ _ _ (List.append_cancel_left h3.2)
  cases d; cases e
  simp only [BookCheckout.mk.injEq]
  exact ⟨⟨h1.1, h2.1, h3.1, h4.1⟩, h4.2⟩

theorem jsonMarshal_injective (d e : BookCheckout) (h : jsonMarshal d = jsonMarshal e) :
    d = e :=
  (jsonMarshal_prefixFree d e [] [] (by rw [h])).1

/-! ## The verb `%d` -/

theorem toNat_decimalDigit (d : Nat) (h : d < 10) : (decimalDigit d).toNat = 48 + d := by
  interval_cases d <;> rfl

theorem isDecimal_decimalDigit (d : Nat) (h : d < 10) : isDecimal (decimalDigit d) := by
  unfold isDecimal
  rw [toNat_decimalDigit d h]
  omega

theorem natDigits_isDecimal (fuel : Nat) : ∀ n : Nat, ∀ c ∈ natDigits fuel n, isDecimal c := by
  induction fuel with
  | zero => intro n c hc; simp [natDigits] at hc
  | succ fuel ih =>
    intro n c hc
    unfold natDigits at hc
    split_ifs at hc with h
    · rw [List.mem_singleton] at hc
      rw [hc]
      exact isDecimal_decimalDigit n h
    · rw [List.mem_append, List.mem_singleton] at hc
      rcases hc with hc | hc
      · exact ih _ c hc
      · rw [hc]
        exact isDecimal_decimalDigit _ (Nat.mod_lt _ (by decide))

theorem natDigits_ne_nil (fuel n : Nat) : natDigits (fuel + 1) n ≠ [] := by
  unfold natDigits
  split_ifs <;> simp

theorem decimalValue_append (l : List Char) (c : Char) :
    decimalValue (l ++ [c]) = 10 * decimalValue l + (c.toNat - 48) := by
  simp [decimalValue, List.foldl_append]

theorem decimalValue_natDigits (fuel : Nat) : ∀ n : Nat, n < fuel →
    decimalValue (natDigits fuel n) = n := by
  induction fuel with
  | zero => intro n h; omega
  | succ fuel ih =>
    intro n hn
    unfold natDigits
    split_ifs with h
    · simp [decimalValue, toNat_decimalDigit n h]
    · rw [decimalValue_append, ih (n / 10) (by omega),
        toNat_decimalDigit _ (Nat.mod_lt _ (by decide))]
      omega

theorem formatNat_injective (n m : Nat) (h : formatNat n = formatNat m) : n = m := by
  have h1 : natDigits (n + 1) n = natDigits (m + 1) m := congrArg String.data h
  have h2 := congrArg decimalValue h1
  rwa [decimalValue_natDigits _ n (by omega), decimalValue_natDigits _ m (by omega)] at h2

theorem formatInt_data (i : Int) :
    (formatInt i).data =
      if i < 0 then Char.ofNat 45 :: natDigits ((-i).toNat + 1) (-i).toNat
      else natDigits (i.toNat + 1) i.toNat := by
  unfold formatInt
  split_ifs <;> rfl

theorem not_isDecimal_minus : ¬ isDecimal (Char.ofNat 45) := by
  unfold isDecimal; decide

theorem formatInt_injective (i j : Int) (h : formatInt i = formatInt j) : i = j := by
  have h1 := congrArg String.data h
  rw [formatInt_data, formatInt_data] at h1
  split_ifs at h1 with hi hj hj
  · have h2 : natDigits ((-i).toNat + 1) (-i).toNat = natDigits ((-j).toNat + 1) (-j).toNat :=
      (List.cons.inj h1).2
    have h3 := formatNat_injective _ _ (String.ext h2)
    omega
  · exfalso
    obtain ⟨c, l, hl⟩ := List.exists_cons_of_ne_nil (natDigits_ne_nil j.toNat j.toNat)
    have hd := natDigits_isDecimal _ _ c (by rw [hl]; exact List.mem_cons_self _ _)
    rw [hl] at h1
    rw [← (List.cons.inj h1).1] at hd
    exact not_isDecimal_minus hd
  · exfalso
    obtain ⟨c, l, hl⟩ := List.exists_cons_of_ne_nil (natDigits_ne_nil i.toNat i.toNat)
    have hd := natDigits_isDecimal _ _ c (by rw [hl]; exact List.mem_cons_self _ _)
    rw [hl] at h1
    rw [(List.cons.inj h1).1] at hd
    exact not_isDecimal_minus hd
  · have h3 := formatNat_injective _ _ (String.ext h1)
    omega

theorem formatInt_ne_nil (i : Int) : (formatInt i).data ≠ [] := by
  rw [formatInt_data]
  split_ifs
  · simp
  · exact natDigits_ne_nil _ _

theorem formatInt_tail_isDecimal (i : Int) : ∀ c ∈ (formatInt i).data.tail, isDecimal c := by
  intro c hc
  rw [formatInt_data] at hc
  split_ifs at hc
  · exact natDigits_isDecimal _ _ c hc
  · exact natDigits_isDecimal _ _ c (List.mem_of_mem_tail hc)

/-! ## The book key -/

theorem newBookInput_injective_of_length (b1 b2 : Book)
    (hl : b1.ISBN.data.length = b2.ISBN.data.length)
    (h : newBookInput b1 = newBookInput b2) :
    b1.ISBN = b2.ISBN ∧ b1.PublishDate = b2.PublishDate := by
  have h1 : b1.ISBN.data ++ b1.PublishDate.data = b2.ISBN.data ++ b2.PublishDate.data :=
    congrArg String.data h
  obtain ⟨e1, e2⟩ := List.append_inj h1 hl
  exact ⟨String.ext e1, String.ext e2⟩

/-! ## Test vectors for `json.Marshal` on strings that are not valid UTF-8 -/

/-- The table of `TestMarshalInvalidUTF8` in `encoding/json`. -/
theorem jsonStringBytes_invalid_utf8 :
    jsonStringBytes (stringBytes "hello" ++ [255] ++ stringBytes "world") =
      stringBytes "\"hello\\ufffdworld\"" ∧
    jsonStringBytes [] = stringBytes "\"\"" ∧
    jsonStringBytes [255] = stringBytes "\"\\ufffd\"" ∧
    jsonStringBytes [255, 255] = stringBytes "\"\\ufffd\\ufffd\"" ∧
    jsonStringBytes [97, 255, 98] = stringBytes "\"a\\ufffdb\"" ∧
    jsonStringBytes [230, 151, 165, 230, 156, 172, 255, 170, 158] =
      stringBytes "\"\u65e5\u672c\\ufffd\\ufffd\\ufffd\"" := by
  decide

/-- Runes that `utf8.DecodeRuneInString` refuses (overlong forms, a surrogate, a
value above U+10FFFF, a cut-off sequence) and runes it accepts. -/
theorem decodeRune_examples :
    decodeRune [192, 128] = (65533, 1) ∧ decodeRune [224, 128, 128] = (65533, 1) ∧
    decodeRune [237, 160, 128] = (65533, 1) ∧ decodeRune [244, 144, 128, 128] = (65533, 1) ∧
    decodeRune [195] = (65533, 1) ∧ decodeRune [195, 169] = (233, 2) ∧
    decodeRune [239, 191, 189] = (65533, 3) ∧ decodeRune [240, 157, 132, 158] = (119070, 4) := by
  decide

/-! ## The two readings of a string agree on valid UTF-8 -/

theorem utf8Bytes_of_lt (c : Char) (h : c.toNat < 128) : utf8Bytes c = [c.toNat] := by
  unfold utf8Bytes
  simp only []
  rw [if_pos h]

theorem utf8Bytes_hexDigit (d : Nat) (h : d < 16) : utf8Bytes (hexDigit d) = [hexDigitByte d] := by
  interval_cases d <;> rfl

theorem Char_not_surrogate (c : Char) : c.toNat < 55296 ∨ 57343 < c.toNat := by
  have h := c.valid
  simp only [UInt32.isValidChar, Nat.isValidChar] at h
  show c.val.toNat < 55296 ∨ 57343 < c.val.toNat
  omega

theorem decodeRune_two (s0 s1 : Nat) (l : List Nat) (h0 : 194 ≤ s0) (h0' : s0 ≤ 223)
    (h1 : 128 ≤ s1) (h1' : s1 ≤ 191) :
    decodeRune (s0 :: s1 :: l) = (s0 % 32 * 64 + s1 % 64, 2) := by
  have e1 : ¬ s0 < 128 := by omega
  have e2 : (194 ≤ s0 ∧ s0 ≤ 223) := ⟨h0, h0'⟩
  have e3 : ¬ s0 = 224 := by omega
  have e4 : ¬ s0 = 240 := by omega
  have e5 : ¬ s0 = 237 := by omega
  have e6 : ¬ s0 = 244 := by omega
  have e7 : ¬ (s1 < 128 ∨ 191 < s1) := by omega
  simp [decodeRune, e1, e2, e3, e4, e5, e6, e7]

theorem decodeRune_three (s0 s1 s2 : Nat) (l : List Nat) (h0 : 224 ≤ s0) (h0' : s0 ≤ 239)
    (h1 : 128 ≤ s1) (h1' : s1 ≤ 191) (ha : s0 = 224 → 160 ≤ s1) (hb : s0 = 237 → s1 ≤ 159)
    (h2 : 128 ≤ s2) (h2' : s2 ≤ 191) :
    decodeRune (s0 :: s1 :: s2 :: l) = (s0 % 16 * 4096 + s1 % 64 * 64 + s2 % 64, 3) := by
  have e1 : ¬ s0 < 128 := by omega
  have e2 : ¬ (194 ≤ s0 ∧ s0 ≤ 223) := by omega
  have e3 : (224 ≤ s0 ∧ s0 ≤ 239) := ⟨h0, h0'⟩
  have e4 : ¬ s0 = 240 := by omega
  have e6 : ¬ s0 = 244 := by omega
  have e7 : ¬ (s2 < 128 ∨ 191 < s2) := by omega
  have e8 : ¬ (s1 < (if s0 = 224 then 160 else 128) ∨ (if s0 = 237 then 159 else 191) < s1) := by
    split_ifs <;> omega
  simp only [decodeRune, e1, e2, e3, e4, e6, if_false, if_true, List.length_cons,
    List.getD_cons_zero, List.getD_cons_succ]
  simp [e7, e8]

theorem decodeRune_four (s0 s1 s2 s3 : Nat) (l : List Nat) (h0 : 240 ≤ s0) (h0' : s0 ≤ 244)
    (h1 : 128 ≤ s1) (h1' : s1 ≤ 191) (ha : s0 = 240 → 144 ≤ s1) (hb : s0 = 244 → s1 ≤ 143)
    (h2 : 128 ≤ s2) (h2' : s2 ≤ 191) (h3 : 128 ≤ s3) (h3' : s3 ≤ 191) :
    decodeRune (s0 :: s1 :: s2 :: s3 :: l) =
      (s0 % 8 * 262144 + s1 % 64 * 4096 + s2 % 64 * 64 + s3 % 64, 4) := by
  have e1 : ¬ s0 < 128 := by omega
  have e2 : ¬ (194 ≤ s0 ∧ s0 ≤ 223) := by omega
  have e3 : ¬ (224 ≤ s0 ∧ s0 ≤ 239) := by omega
  have e4 : (240 ≤ s0 ∧ s0 ≤ 244) := ⟨h0, h0'⟩
  have e5 : ¬ s0 = 224 := by omega
  have e6 : ¬ s0 = 237 := by omega
  have e7 : ¬ (s2 < 128 ∨ 191 < s2) := by omega
  have e9 : ¬ (s3 < 128 ∨ 191 < s3) := by omega
  have e8 : ¬ (s1 < (if s0 = 240 then 144 else 128) ∨ (if s0 = 244 then 143 else 191) < s1) := by
    split_ifs <;> omega
  simp only [decodeRune, e1, e2, e3, e4, e5, e6, if_false, if_true, List.length_cons,
    List.getD_cons_zero, List.getD_cons_succ]
  simp [e7, e8, e9]

theorem decodeRune_utf8Bytes (c : Char) (l : List Nat) (h : 128 ≤ c.toNat) :
    decodeRune (utf8Bytes c ++ l) = (c.toNat, (utf8Bytes c).length) := by
  have hv := Char_toNat_lt c
  have hs := Char_not_surrogate c
  unfold utf8Bytes
  simp only []
  split_ifs with h1 h2 h3
  · omega
  · simp only [List.cons_append, List.nil_append, List.length_cons, List.length_nil]
    rw [decodeRune_two _ _ _ (by omega) (by omega) (by omega) (by omega)]
    simp only [Prod.mk.injEq, and_true]
    omega
  · simp only [List.cons_append, List.nil_append, List.length_cons, List.length_nil]
    rw [decodeRune_three _ _ _ _ (by omega) (by omega) (by omega) (by omega) (by omega)
      (by omega) (by omega) (by omega)]
    simp only [Prod.mk.injEq, and_true]
    omega
  · simp only [List.cons_append, List.nil_append, List.length_cons, List.length_nil]
    rw [decodeRune_four _ _ _ _ _ (by omega) (by omega) (by omega) (by omega) (by omega)
      (by omega) (by omega) (by omega) (by omega) (by omega)]
    simp only [Prod.mk.injEq, and_true]
    omega

theorem stringBytes_append (s t : String) :
    stringBytes (s ++ t) = stringBytes s ++ stringBytes t := by
  simp only [stringBytes, String.data_append, List.flatMap_append]

theorem jsonEscape_flatMap_of_lt (c : Char) (h : c.toNat < 128) :
    (jsonEscape c).flatMap utf8Bytes = jsonEscapeByte c.toNat := by
  have a92 : utf8Bytes (Char.ofNat 92) = [92] := rfl
  have ab : utf8Bytes 'b' = [98] := rfl
  have af : utf8Bytes 'f' = [102] := rfl
  have an : utf8Bytes 'n' = [110] := rfl
  have ar : utf8Bytes 'r' = [114] := rfl
  have at' : utf8Bytes 't' = [116] := rfl
  have au : utf8Bytes 'u' = [117] := rfl
  have a0 : utf8Bytes '0' = [48] := rfl
  have ac := utf8Bytes_of_lt c h
  unfold jsonEscape jsonEscapeByte
  simp only []
  split_ifs with h1 h2 h3 h4 h5 h6 h7 h8
  · simp [List.flatMap_cons, a92, ac]
  · simp [List.flatMap_cons, a92, ab]
  · simp [List.flatMap_cons, a92, af]
  · simp [List.flatMap_cons, a92, an]
  · simp [List.flatMap_cons, a92, ar]
  · simp [List.flatMap_cons, a92, at']
  · have e1 := utf8Bytes_hexDigit (c.toNat / 16) (by omega)
    have e2 := utf8Bytes_hexDigit (c.toNat % 16) (by omega)
    simp [List.flatMap_cons, a92, au, a0, e1, e2]
  · omega
  · simp [List.flatMap_cons, ac]

theorem jsonEscape_flatMap_of_ge (c : Char) (h : 128 ≤ c.toNat) :
    (jsonEscape c).flatMap utf8Bytes =
      if c.toNat = 8232 ∨ c.toNat = 8233 then [92, 117, 50, 48, 50, hexDigitByte (c.toNat % 16)]
      else utf8Bytes c := by
  have a92 : utf8Bytes (Char.ofNat 92) = [92] := rfl
  have au : utf8Bytes 'u' = [117] := rfl
  have a0 : utf8Bytes '0' = [48] := rfl
  have a2 : utf8Bytes '2' = [50] := rfl
  unfold jsonEscape
  simp only []
  split_ifs with h1 h2 h3 h4 h5 h6 h7 h8 <;> try omega
  · have e2 := utf8Bytes_hexDigit (c.toNat % 16) (by omega)
    simp [List.flatMap_cons, a92, au, a0, a2, e2]
  · simp [List.flatMap_cons]

theorem utf8Bytes_head_of_ge (c : Char) (h : 128 ≤ c.toNat) :
    ∃ b t, utf8Bytes c = b :: t ∧ 128 ≤ b ∧ 2 ≤ (utf8Bytes c).length := by
  unfold utf8Bytes
  simp only []
  split_ifs
  · omega
  · exact ⟨_, _, rfl, by omega, by simp⟩
  · exact ⟨_, _, rfl, by omega, by simp⟩
  · exact ⟨_, _, rfl, by omega, by simp⟩

theorem appendStringLoop_flatMap (cs : List Char) : ∀ fuel : Nat,
    (cs.flatMap utf8Bytes).length ≤ fuel →
    appendStringLoop fuel (cs.flatMap utf8Bytes) = (cs.flatMap jsonEscape).flatMap utf8Bytes := by
  induction cs with
  | nil =>
    intro fuel _
    cases fuel <;> simp [appendStringLoop]
  | cons c cs ih =>
    intro fuel hf
    simp only [List.flatMap_cons, List.flatMap_append, List.length_append] at hf ⊢
    by_cases hc : c.toNat < 128
    · rw [utf8Bytes_of_lt c hc] at hf ⊢
      rw [jsonEscape_flatMap_of_lt c hc]
      cases fuel with
      | zero => simp at hf
      | succ f =>
        simp only [List.length_singleton] at hf
        simp only [appendStringLoop, List.cons_append, List.nil_append, if_pos hc]
        rw [ih f (by omega)]
    · have hge : 128 ≤ c.toNat := by omega
      obtain ⟨b, t, hbt, hb, hlen⟩ := utf8Bytes_head_of_ge c hge
      have hd := decodeRune_utf8Bytes c (cs.flatMap utf8Bytes) hge
      rw [jsonEscape_flatMap_of_ge c hge]
      cases fuel with
      | zero => omega
      | succ f =>
        have hb' : ¬ b < 128 := by omega
        have hne : ¬ (c.toNat = 65533 ∧ (utf8Bytes c).length = 1) := by omega
        have hdrop : (utf8Bytes c ++ cs.flatMap utf8Bytes).drop (utf8Bytes c).length =
            cs.flatMap utf8Bytes := List.drop_left' rfl
        have htake : (utf8Bytes c ++ cs.flatMap utf8Bytes).take (utf8Bytes c).length =
            utf8Bytes c := List.take_left' rfl
        have hih := ih f (by omega)
        rw [hbt] at hd hdrop htake
        simp only [List.cons_append] at hd hdrop htake
        rw [hbt]
        simp only [appendStringLoop, List.cons_append, if_neg hb', hd]
        rw [hbt] at hne
        rw [if_neg hne, hdrop, htake, hih]
        split_ifs <;> simp

theorem jsonStringBytes_stringBytes (s : String) :
    jsonStringBytes (stringBytes s) = stringBytes (jsonString s) := by
  have h : stringBytes (jsonString s) =
      34 :: ((s.data.flatMap jsonEscape).flatMap utf8Bytes ++ [34]) := by
    simp only [stringBytes, jsonString_data, List.flatMap_cons, List.flatMap_append,
      List.flatMap_nil, List.append_nil]
    rfl
  rw [h, jsonStringBytes, stringBytes, appendStringLoop_flatMap s.data _ (Nat.le_refl _)]

theorem jsonMarshalBytes_toRaw (d : BookCheckout) :
    jsonMarshalBytes d.toRaw = stringBytes (jsonMarshal d) := by
  simp only [jsonMarshalBytes, BookCheckout.toRaw, jsonMarshal, stringBytes_append,
    jsonStringBytes_stringBytes]
  rfl

theorem hashInputBytes_toRaw (b : Block) : hashInputBytes b.toRaw = stringBytes (hashInput b) := by
  simp only [hashInputBytes, Block.toRaw, hashInput, stringBytes_append, jsonMarshalBytes_toRaw]

/-- On records whose strings are valid UTF-8 the method `generateHash` on Go
strings is `generateHash`. -/
theorem generateHashRaw_toRaw (b : Block) : generateHashRaw b.toRaw = (generateHash b).toRaw := by
  simp only [generateHashRaw, generateHash, Block.toRaw, hashInputBytes_toRaw]
  rw [← hashInputBytes_toRaw]
  rfl

/-! ## Reading the hashed bytes back -/

/-- Equal byte strings that begin with the UTF-8 of two texts: one text begins
with the other, and the rest of the bytes agree. -/
theorem flatMap_utf8Bytes_lift (xs : List Char) : ∀ (ys : List Char) (l l1 : List Nat),
    xs.flatMap utf8Bytes ++ l = ys.flatMap utf8Bytes ++ l1 →
    (∃ zs, ys = xs ++ zs ∧ l = zs.flatMap utf8Bytes ++ l1) ∨
    (∃ zs, xs = ys ++ zs ∧ l1 = zs.flatMap utf8Bytes ++ l) := by
  induction xs with
  | nil =>
    intro ys l l1 h
    exact Or.inl ⟨ys, rfl, by simpa using h⟩
  | cons x xs ih =>
    intro ys l l1 h
    cases ys with
    | nil => exact Or.inr ⟨x :: xs, rfl, by simpa using h.symm⟩
    | cons y ys =>
      simp only [List.flatMap_cons, List.append_assoc] at h
      obtain ⟨rfl, h2⟩ := utf8Bytes_prefixFree _ _ _ _ h
      rcases ih ys l l1 h2 with ⟨zs, h3, h4⟩ | ⟨zs, h3, h4⟩
      · exact Or.inl ⟨zs, by rw [h3]; rfl, h4⟩
      · exact Or.inr ⟨zs, by rw [h3]; rfl, h4⟩

theorem stringBytes_jsonMarshal_prefixFree (d e : BookCheckout) (r r1 : List Nat)
    (h : stringBytes (jsonMarshal d) ++ r = stringBytes (jsonMarshal e) ++ r1) :
    d = e ∧ r = r1 := by
  rcases flatMap_utf8Bytes_lift _ _ _ _ h with ⟨zs, h1, h2⟩ | ⟨zs, h1, h2⟩
  · obtain ⟨hd, hz⟩ := jsonMarshal_prefixFree d e zs [] (by rw [List.append_nil]; exact h1.symm)
    rw [hz] at h2
    exact ⟨hd, by simpa using h2⟩
  · obtain ⟨hd, hz⟩ := jsonMarshal_prefixFree e d zs [] (by rw [List.append_nil]; exact h1.symm)
    rw [hz] at h2
    exact ⟨hd.symm, by simpa using h2.symm⟩

theorem BookCheckout_toRaw_injective (d e : BookCheckout) (h : d.toRaw = e.toRaw) : d = e := by
  cases d; cases e
  simp only [BookCheckout.toRaw, RawBookCheckout.mk.injEq] at h
  simp only [BookCheckout.mk.injEq]
  exact ⟨stringBytes_injective _ _ h.1, stringBytes_injective _ _ h.2.1,
    stringBytes_injective _ _ h.2.2.1, h.2.2.2⟩

/-- A non-empty run of elements with the property `P` cannot be slipped in before
a text `t` when what follows `t` starts with an element without the property. -/
theorem no_run_before {α : Type} (P : α → Prop) (t : List α) : ∀ (z : List α), z ≠ [] →
    (∀ c ∈ z, P c) → ∀ (h0 : α) (r r1 : List α), ¬ P h0 →
    t ++ h0 :: r ≠ z ++ (t ++ r1) := by
  induction t with
  | nil =>
    intro z hz hd h0 r r1 hh h
    obtain ⟨c, l, rfl⟩ := List.exists_cons_of_ne_nil hz
    simp only [List.nil_append, List.cons_append, List.cons.injEq] at h
    exact hh (h.1 ▸ hd c (List.mem_cons_self _ _))
  | cons a t ih =>
    intro z hz hd h0 r r1 hh h
    obtain ⟨c, l, rfl⟩ := List.exists_cons_of_ne_nil hz
    simp only [List.cons_append, List.cons.injEq] at h
    obtain ⟨hac, h2⟩ := h
    refine ih (l ++ [a]) (by simp) ?_ h0 r r1 hh (by simpa using h2)
    intro x hx
    rw [List.mem_append, List.mem_singleton] at hx
    rcases hx with hx | hx
    · exact hd x (List.mem_cons_of_mem _ hx)
    · rw [hx, hac]; exact hd c (List.mem_cons_self _ _)

theorem flatMap_utf8Bytes_ascii (l : List Char) (h : ∀ c ∈ l, c.toNat < 128) :
    l.flatMap utf8Bytes = l.map Char.toNat := by
  induction l with
  | nil => rfl
  | cons c l ih =>
    rw [List.flatMap_cons, List.map_cons, utf8Bytes_of_lt c (h c (List.mem_cons_self _ _)),
      ih (fun x hx => h x (List.mem_cons_of_mem _ hx))]
    rfl

theorem formatInt_ascii (i : Int) : ∀ c ∈ (formatInt i).data, c.toNat < 128 := by
  intro c hc
  obtain ⟨a, l, hl⟩ := List.exists_cons_of_ne_nil (formatInt_ne_nil i)
  rw [hl, List.mem_cons] at hc
  rcases hc with rfl | hc
  · have h := formatInt_data i
    rw [hl] at h
    split_ifs at h
    · rw [(List.cons.inj h).1]; decide
    · have hd := natDigits_isDecimal _ _ c (by rw [← h]; exact List.mem_cons_self _ _)
      unfold isDecimal at hd
      omega
  · have hd := formatInt_tail_isDecimal i c (by rw [hl]; exact hc)
    unfold isDecimal at hd
    omega

theorem stringBytes_formatInt (i : Int) :
    stringBytes (formatInt i) = (formatInt i).data.map Char.toNat :=
  flatMap_utf8Bytes_ascii _ (formatInt_ascii i)

theorem stringBytes_formatInt_ne_nil (i : Int) : stringBytes (formatInt i) ≠ [] := by
  rw [stringBytes_formatInt]
  intro h
  exact formatInt_ne_nil i (List.map_eq_nil_iff.1 h)

theorem stringBytes_formatInt_tail (i : Int) :
    ∀ b ∈ (stringBytes (formatInt i)).tail, 48 ≤ b ∧ b ≤ 57 := by
  intro b hb
  rw [stringBytes_formatInt, ← List.map_tail, List.mem_map] at hb
  obtain ⟨c, hc, rfl⟩ := hb
  exact formatInt_tail_isDecimal i c hc

theorem jsonMarshalBytes_head (d : RawBookCheckout) : ∃ t, jsonMarshalBytes d = 123 :: t := by
  have hk : stringBytes "\x7b\"book_id\":" = 123 :: stringBytes "\"book_id\":" := rfl
  simp only [jsonMarshalBytes, hk, List.cons_append]
  exact ⟨_, rfl⟩

theorem hashInputBytes_assoc (b : RawBlock) :
    hashInputBytes b = stringBytes (formatInt b.Index) ++ (b.Timestamp ++
      (jsonMarshalBytes b.Data ++ b.PrevHash)) := by
  simp only [hashInputBytes, List.append_assoc]

theorem no_longer_Index_bytes (i j : Int) (t : List Nat) (d e : RawBookCheckout)
    (p q z : List Nat)
    (hj : stringBytes (formatInt j) = stringBytes (formatInt i) ++ z)
    (h : t ++ (jsonMarshalBytes d ++ p) = z ++ (t ++ (jsonMarshalBytes e ++ q))) :
    z = [] := by
  by_contra hz
  obtain ⟨a, l, hl⟩ := List.exists_cons_of_ne_nil (stringBytes_formatInt_ne_nil i)
  have hd : ∀ c ∈ z, 48 ≤ c ∧ c ≤ 57 := by
    intro c hc
    refine stringBytes_formatInt_tail j c ?_
    rw [hj, hl]
    exact List.mem_append_right _ hc
  obtain ⟨u, hu⟩ := jsonMarshalBytes_head d
  rw [hu] at h
  exact no_run_before (fun c => 48 ≤ c ∧ c ≤ 57) t z hz hd _ _ _ (by decide) h

/-- With equal Timestamps, equal hashed bytes have equal Index and agree from
the JSON of the payload on. -/
theorem hashInputBytes_Index_eq (b1 b2 : RawBlock) (hts : b1.Timestamp = b2.Timestamp)
    (h : hashInputBytes b1 = hashInputBytes b2) :
    b1.Index = b2.Index ∧
    jsonMarshalBytes b1.Data ++ b1.PrevHash = jsonMarshalBytes b2.Data ++ b2.PrevHash := by
  rw [hashInputBytes_assoc, hashInputBytes_assoc, hts] at h
  have key : stringBytes (formatInt b1.Index) = stringBytes (formatInt b2.Index) := by
    rcases List.append_eq_append_iff.1 h with ⟨z, hz1, hz2⟩ | ⟨z, hz1, hz2⟩
    · have := no_longer_Index_bytes _ _ _ _ _ _ _ z hz1 hz2
      rw [this, List.append_nil] at hz1
      exact hz1.symm
    · have := no_longer_Index_bytes _ _ _ _ _ _ _ z hz1 hz2
      rw [this, List.append_nil] at hz1
      exact hz1
  rw [key] at h
  exact ⟨formatInt_injective _ _ (stringBytes_injective _ _ key),
    List.append_cancel_left (List.append_cancel_left h)⟩

theorem hashInputBytes_eq_of_valid (b1 b2 : RawBlock) (d1 d2 : BookCheckout)
    (hts : b1.Timestamp = b2.Timestamp) (h1 : b1.Data = d1.toRaw) (h2 : b2.Data = d2.toRaw)
    (h : hashInputBytes b1 = hashInputBytes b2) :
    b1.Index = b2.Index ∧ b1.Data = b2.Data ∧ b1.PrevHash = b2.PrevHash := by
  obtain ⟨hi, hj⟩ := hashInputBytes_Index_eq b1 b2 hts h
  rw [h1, h2, jsonMarshalBytes_toRaw, jsonMarshalBytes_toRaw] at hj
  obtain ⟨hd, hp⟩ := stringBytes_jsonMarshal_prefixFree _ _ _ _ hj
  exact ⟨hi, by rw [h1, h2, hd], hp⟩

theorem exposesRaw_of_ne (b b1 : RawBlock) (h : hashInputBytes b1 ≠ hashInputBytes b) :
    exposesRaw b b1 := by
  refine ⟨h, ?_⟩
  by_cases hh : (generateHashRaw b1).Hash = (generateHashRaw b).Hash
  · exact Or.inr (hexEncodeToString_injective _ _ (sha256Sum_lt _) (sha256Sum_lt _)
      (stringBytes_injective _ _ hh))
  · exact Or.inl hh

/-! ## The claims, continued -/

set_option maxRecDepth 100000 in
/-- C11, as stated, fails for the payload: `json.Marshal` writes every byte of a
string that does not begin a valid UTF-8 encoding as the same escape. Changing
the book id of `rawRecordFF` from the byte `0xff` to the byte `0xfe` leaves the
bytes fed to SHA-256, and so the fingerprint, as they were. -/
theorem invalid_utf8_edit_not_exposed :
    rawPayloadFE ≠ rawRecordFF.Data ∧
    hashInputBytes { rawRecordFF with Data := rawPayloadFE } = hashInputBytes rawRecordFF ∧
    (generateHashRaw { rawRecordFF with Data := rawPayloadFE }).Hash =
      (generateHashRaw rawRecordFF).Hash ∧
    ¬ exposesRaw rawRecordFF { rawRecordFF with Data := rawPayloadFE } :=
  ⟨by decide, by decide, by decide, fun h => h.1 (by decide)⟩

/-- C11, amended. Tamper detection for a single-field edit: for every record
`b`, with any Go strings in it, changing exactly one of Index, Timestamp or
PrevHash to a different value, or changing Data from a payload whose strings are
valid UTF-8 to a different payload whose strings are valid UTF-8, changes the
byte string that `generateHash` feeds to SHA-256, so the fingerprint recomputed
after the edit differs from the one of `b` unless SHA-256 gives these two
different byte strings the same digest (`exposesRaw`). -/
theorem single_field_edit_exposed_on_bytes (b : RawBlock) :
    (∀ i : Int, i ≠ b.Index → exposesRaw b { b with Index := i }) ∧
    (∀ ts : List Nat, ts ≠ b.Timestamp → exposesRaw b { b with Timestamp := ts }) ∧
    (∀ p : List Nat, p ≠ b.PrevHash → exposesRaw b { b with PrevHash := p }) ∧
    (∀ d d1 : BookCheckout, b.Data = d.toRaw → d1.toRaw ≠ b.Data →
      exposesRaw b { b with Data := d1.toRaw }) := by
  refine ⟨?_, ?_, ?_, ?_⟩
  · intro i hi
    refine exposesRaw_of_ne b _ (fun he => hi ?_)
    exact (hashInputBytes_Index_eq { b with Index := i } b rfl he).1
  · intro ts hts
    refine exposesRaw_of_ne b _ (fun he => hts ?_)
    rw [hashInputBytes_assoc, hashInputBytes_assoc] at he
    exact List.append_cancel_right (List.append_cancel_left he)
  · intro p hp
    refine exposesRaw_of_ne b _ (fun he => hp ?_)
    exact List.append_cancel_left (hashInputBytes_Index_eq { b with PrevHash := p } b rfl he).2
  · intro d d1 hd hne
    refine exposesRaw_of_ne b _ (fun he => hne ?_)
    have h := hashInputBytes_eq_of_valid { b with Data := d1.toRaw } b d1 d rfl rfl hd he
    exact h.2.1

theorem single_field_edit_exposed_on_bytes_witness :
    ((3 : Int) ≠ secondRecord.toRaw.Index ∧
      stringBytes "then" ≠ secondRecord.toRaw.Timestamp ∧
      [] ≠ secondRecord.toRaw.PrevHash ∧
      secondRecord.toRaw.Data = payloadB1.toRaw ∧
      payloadFlagged.toRaw ≠ secondRecord.toRaw.Data) ∧
    exposesRaw secondRecord.toRaw { secondRecord.toRaw with Index := 3 } ∧
    exposesRaw secondRecord.toRaw { secondRecord.toRaw with Timestamp := stringBytes "then" } ∧
    exposesRaw secondRecord.toRaw { secondRecord.toRaw with PrevHash := [] } ∧
    exposesRaw secondRecord.toRaw { secondRecord.toRaw with Data := payloadFlagged.toRaw } :=
  ⟨by decide,
   (single_field_edit_exposed_on_bytes secondRecord.toRaw).1 3 (by decide),
   (single_field_edit_exposed_on_bytes secondRecord.toRaw).2.1 (stringBytes "then") (by decide),
   (single_field_edit_exposed_on_bytes secondRecord.toRaw).2.2.1 [] (by decide),
   (single_field_edit_exposed_on_bytes secondRecord.toRaw).2.2.2 payloadB1 payloadFlagged rfl
     (by decide)⟩

/-- C12. For every record, the fingerprint that `generateHash` stores in Hash is
the hex encoding of the SHA-256 digest of the hashed text, a digest of 32 bytes;
it is a string of exactly 64 characters, each one of `0123456789abcdef`. -/
theorem generateHash_Hash_is_hex64 (b : Block) :
    (generateHash b).Hash = hexEncodeToString (sha256Sum (stringBytes (hashInput b))) ∧
    (sha256Sum (stringBytes (hashInput b))).length = 32 ∧
    (∀ x ∈ sha256Sum (stringBytes (hashInput b)), x < 256) ∧
    (generateHash b).Hash.length = 64 ∧
    (∀ c ∈ (generateHash b).Hash.data, c ∈ "0123456789abcdef".data) :=
  ⟨rfl, length_sha256Sum _, sha256Sum_lt _, length_fingerprint _ _ _ _,
    hexEncodeToString_mem _⟩

set_option maxRecDepth 100000 in
theorem generateHash_Hash_is_hex64_witness :
    '8' ∈ (generateHash secondRecord).Hash.data ∧
    (generateHash secondRecord).Hash.length = 64 ∧
    '8' ∈ "0123456789abcdef".data :=
  ⟨by decide, (generateHash_Hash_is_hex64 secondRecord).2.2.2.1,
   (generateHash_Hash_is_hex64 secondRecord).2.2.2.2 '8' (by decide)⟩

/-- C13. Fingerprint determinism: the Hash that `generateHash` computes is the
fingerprint function of (Index, Timestamp, Data, PrevHash) and of nothing else.
Two records that agree on these four fields get the same Hash, whatever was
stored in their Hash fields before, and calling `generateHash` twice on a record
leaves the same record, with the same Hash, as calling it once. -/
theorem generateHash_deterministic :
    (∀ b : Block,
      (generateHash b).Hash = fingerprint b.Index b.Timestamp b.Data b.PrevHash) ∧
    (∀ b1 b2 : Block, b1.Index = b2.Index → b1.Timestamp = b2.Timestamp →
      b1.Data = b2.Data → b1.PrevHash = b2.PrevHash →
      (generateHash b1).Hash = (generateHash b2).Hash) ∧
    (∀ (b : Block) (h : String),
      (generateHash { b with Hash := h }).Hash = (generateHash b).Hash) ∧
    (∀ b : Block, generateHash (generateHash b) = generateHash b) ∧
    (∀ b : Block, (generateHash (generateHash b)).Hash = (generateHash b).Hash) := by
  refine ⟨fun _ => rfl, ?_, fun _ _ => rfl, fun _ => rfl, fun _ => rfl⟩
  intro b1 b2 h1 h2 h3 h4
  rw [generateHash_Hash, generateHash_Hash, h1, h2, h3, h4]

theorem generateHash_deterministic_witness :
    (tamperedCandidate.Index = secondRecord.Index ∧
      tamperedCandidate.Timestamp = secondRecord.Timestamp ∧
      tamperedCandidate.Data = secondRecord.Data ∧
      tamperedCandidate.PrevHash = secondRecord.PrevHash) ∧
    tamperedCandidate.Hash ≠ secondRecord.Hash ∧
    (generateHash tamperedCandidate).Hash = (generateHash secondRecord).Hash :=
  ⟨⟨rfl, rfl, rfl, rfl⟩, by decide,
    generateHash_deterministic.2.1 tamperedCandidate secondRecord rfl rfl rfl rfl⟩

set_option maxRecDepth 100000 in
/-- C14. The id that `newBook` computes is the lowercase hex encoding of the
MD5 digest (16 bytes, 128 bits, hence 32 hex digits) of the ISBN followed by the
publish date. Two books with the same ISBN and publish date get the same id,
whatever their title, author or the id the client sent; for ISBN `ISBN1` and
publish date `2020` the id is `135489eb2b0c0d73290561967607755e`. -/
theorem newBook_id_is_md5_of_key :
    (∀ book : Book, newBook (some book) = (200, jsonMarshalIndentBook (newBookRecord book))) ∧
    (∀ book : Book,
      (newBookRecord book).ID =
        hexEncodeToString (md5Sum (stringBytes (book.ISBN ++ book.PublishDate))) ∧
      (md5Sum (stringBytes (book.ISBN ++ book.PublishDate))).length = 16 ∧
      (newBookRecord book).ID.length = 32 ∧
      (∀ c ∈ (newBookRecord book).ID.data, c ∈ "0123456789abcdef".data)) ∧
    (∀ b1 b2 : Book, b1.ISBN = b2.ISBN → b1.PublishDate = b2.PublishDate →
      (newBookRecord b1).ID = (newBookRecord b2).ID) ∧
    (newBookRecord bookA).ID = "135489eb2b0c0d73290561967607755e" := by
  refine ⟨fun _ => rfl, fun book => ⟨rfl, length_md5Sum _, ?_, hexEncodeToString_mem _⟩, ?_,
    by decide⟩
  · show (hexEncodeToString _).length = 32
    rw [length_hexEncodeToString, length_md5Sum]
  · intro b1 b2 h1 h2
    show hexEncodeToString (md5Sum (stringBytes (newBookInput b1))) =
      hexEncodeToString (md5Sum (stringBytes (newBookInput b2)))
    rw [newBookInput, newBookInput, h1, h2]

set_option maxRecDepth 100000 in
theorem newBook_id_is_md5_of_key_witness :
    (bookA.ISBN = bookB.ISBN ∧ bookA.PublishDate = bookB.PublishDate) ∧
    (bookA.ID ≠ bookB.ID ∧ bookA.Title ≠ bookB.Title ∧ bookA.Author ≠ bookB.Author) ∧
    (newBookRecord bookA).ID = (newBookRecord bookB).ID ∧
    '1' ∈ "0123456789abcdef".data :=
  ⟨⟨rfl, rfl⟩, by decide, newBook_id_is_md5_of_key.2.2.1 bookA bookB rfl rfl,
    (newBook_id_is_md5_of_key.2.1 bookA).2.2.2 '1' (by decide)⟩

set_option maxRecDepth 100000 in
/-- C15. On the failing input the verdict of `validBlock` is not stable. The
candidate `tamperedCandidate` has the right Index and PrevHash against
`genesisRecord` and a Hash, `"forged"`, that is not its fingerprint. The first
call answers false, as the claim says, but it leaves the recomputed fingerprint
in the Hash field of the candidate, so the second call on the same candidate and
tail answers true. -/
theorem validBlock_second_call_accepts_tampered :
    (tamperedCandidate.Index = addInt64 genesisRecord.Index 1 ∧
      tamperedCandidate.PrevHash = genesisRecord.Hash ∧
      tamperedCandidate.Hash ≠ fingerprint tamperedCandidate.Index tamperedCandidate.Timestamp
        tamperedCandidate.Data tamperedCandidate.PrevHash) ∧
    (validBlock tamperedCandidate genesisRecord).1 = false ∧
    (validBlock tamperedCandidate genesisRecord).2.Hash ≠ tamperedCandidate.Hash ∧
    (validBlock (validBlock tamperedCandidate genesisRecord).2 genesisRecord).1 = true := by
  decide

set_option maxRecDepth 100000 in
/-- C16, as stated, fails: `generateHash` writes the decimal Index and the
Timestamp one after the other with nothing between them. Index 1 with Timestamp
`02:00` and Index 10 with Timestamp `2:00` (other fields equal) give the same
text, the same bytes and the same fingerprint. It also fails for payload strings
that are not valid UTF-8: the users `0x80` and `0xc0` give the same bytes. -/
theorem digest_input_not_injective :
    ((recordEarly.Index ≠ recordLate.Index ∧ recordEarly.Timestamp ≠ recordLate.Timestamp) ∧
      hashInput recordEarly = hashInput recordLate ∧
      stringBytes (hashInput recordEarly) = stringBytes (hashInput recordLate) ∧
      (generateHash recordEarly).Hash = (generateHash recordLate).Hash) ∧
    (rawRecordUserA.Timestamp = rawRecordUserB.Timestamp ∧
      rawRecordUserA.Data ≠ rawRecordUserB.Data ∧
      hashInputBytes rawRecordUserA = hashInputBytes rawRecordUserB) := by
  decide

/-- C16, amended. For any two records, with any Go strings in them, that have
the same Timestamp: if the byte strings that `generateHash` feeds to SHA-256 are
equal then the records have equal Index, and when the strings of both payloads
are valid UTF-8 they also have equal Data and equal PrevHash. So any edit to
position, payload or predecessor fingerprint, alone or several at once, that
leaves the Timestamp as it was and the payload strings valid UTF-8 changes the
digest input. On records whose strings are all valid UTF-8 the bytes are those
of the text `hashInput`. -/
theorem digest_input_identifies_valid_payload :
    (∀ b1 b2 : RawBlock, b1.Timestamp = b2.Timestamp →
      hashInputBytes b1 = hashInputBytes b2 → b1.Index = b2.Index) ∧
    (∀ (b1 b2 : RawBlock) (d1 d2 : BookCheckout), b1.Timestamp = b2.Timestamp →
      b1.Data = d1.toRaw → b2.Data = d2.toRaw →
      hashInputBytes b1 = hashInputBytes b2 →
      b1.Index = b2.Index ∧ b1.Data = b2.Data ∧ b1.PrevHash = b2.PrevHash) ∧
    (∀ b : Block, hashInputBytes b.toRaw = stringBytes (hashInput b)) :=
  ⟨fun b1 b2 hts h => (hashInputBytes_Index_eq b1 b2 hts h).1,
   fun b1 b2 d1 d2 hts h1 h2 h => hashInputBytes_eq_of_valid b1 b2 d1 d2 hts h1 h2 h,
   hashInputBytes_toRaw⟩

theorem digest_input_identifies_valid_payload_witness :
    (tamperedCandidate.toRaw.Timestamp = secondRecord.toRaw.Timestamp ∧
      tamperedCandidate.toRaw.Data = payloadB1.toRaw ∧
      secondRecord.toRaw.Data = payloadB1.toRaw ∧
      hashInputBytes tamperedCandidate.toRaw = hashInputBytes secondRecord.toRaw) ∧
    tamperedCandidate.toRaw.Index = secondRecord.toRaw.Index ∧
    (tamperedCandidate.toRaw.Index = secondRecord.toRaw.Index ∧
      tamperedCandidate.toRaw.Data = secondRecord.toRaw.Data ∧
      tamperedCandidate.toRaw.PrevHash = secondRecord.toRaw.PrevHash) :=
  ⟨⟨rfl, rfl, rfl, rfl⟩,
   digest_input_identifies_valid_payload.1 tamperedCandidate.toRaw secondRecord.toRaw rfl rfl,
   digest_input_identifies_valid_payload.2.1 tamperedCandidate.toRaw secondRecord.toRaw
     payloadB1 payloadB1 rfl rfl rfl rfl⟩

/-- C17. In every chain reached from `NewBlockChain()` by `AddBlock` calls the
first record has the empty PrevHash and every later record has a PrevHash that
is not empty: it is the Hash of the record before it, 64 characters long. -/
theorem only_genesis_has_empty_PrevHash (ds : List BookCheckout) :
    ∃ bc, addBlocks NewBlockChain ds = some bc ∧
      (bc.blocks.head?).map Block.PrevHash = some "" ∧
      (∀ b ∈ bc.blocks.tail, b.PrevHash ≠ "" ∧ b.PrevHash.length = 64) ∧
      List.Chain' (fun prev cur => cur.PrevHash = prev.Hash) bc.blocks := by
  refine ⟨_, addBlocks_NewBlockChain ds, rfl, ?_, ?_⟩
  · intro b hb
    have h := (growBlocks_hash_lengths ds GenesisBlock (length_fingerprint _ _ _ _) b hb).1
    refine ⟨?_, h⟩
    intro he
    rw [he] at h
    exact absurd h (by decide)
  · exact List.Chain'.imp (fun _ _ h => h.2.1) (chain_growBlocks ds GenesisBlock)

theorem only_genesis_has_empty_PrevHash_witness :
    ∃ bc, addBlocks NewBlockChain [payloadB1] = some bc ∧
      (bc.blocks.head?).map Block.PrevHash = some "" ∧
      (bc.blocks[1]?).map (fun b => b.PrevHash.length) = some 64 := by
  obtain ⟨bc, h, h0, h1, _⟩ := only_genesis_has_empty_PrevHash [payloadB1]
  refine ⟨bc, h, h0, ?_⟩
  have hb : bc.blocks = GenesisBlock :: growBlocks GenesisBlock [payloadB1] := by
    have := (addBlocks_NewBlockChain [payloadB1]).symm.trans h
    exact (congrArg Blockchain.blocks (Option.some.inj this)).symm
  have hm : CreateBlock GenesisBlock payloadB1 ∈ bc.blocks.tail := by
    rw [hb]; simp [growBlocks]
  rw [hb]
  simp only [growBlocks, List.getElem?_cons_succ, List.getElem?_cons_zero, Option.map_some']
  exact congrArg some (h1 _ hm).2

/-- C18. Every record that `CreateBlock` builds carries the literal timestamp
`now`, and so does every record of a chain built from `NewBlockChain()`. Nothing
but the payloads enters the construction: two chains built from
`NewBlockChain()` by the same sequence of payloads are equal record for record,
every Hash and PrevHash included, and `NewBlockChain()` is always the chain of
the one record `genesisRecord`. -/
theorem chain_construction_deterministic :
    (∀ (p : Block) (d : BookCheckout), (CreateBlock p d).Timestamp = "now") ∧
    (∀ ds : List BookCheckout, ∃ bc, addBlocks NewBlockChain ds = some bc ∧
      ∀ b ∈ bc.blocks, b.Timestamp = "now") ∧
    (∀ (ds1 ds2 : List BookCheckout) (bc1 bc2 : Blockchain), ds1 = ds2 →
      addBlocks NewBlockChain ds1 = some bc1 → addBlocks NewBlockChain ds2 = some bc2 →
      bc1 = bc2 ∧ bc1.blocks.map Block.Hash = bc2.blocks.map Block.Hash ∧
        bc1.blocks.map Block.PrevHash = bc2.blocks.map Block.PrevHash) ∧
    NewBlockChain.blocks = [genesisRecord] := by
  refine ⟨fun _ _ => rfl, ?_, ?_, by rw [← GenesisBlock_eq]; rfl⟩
  · intro ds
    refine ⟨_, addBlocks_NewBlockChain ds, ?_⟩
    intro b hb
    simp only [List.mem_cons] at hb
    rcases hb with rfl | hb
    · rfl
    · exact growBlocks_Timestamp ds GenesisBlock b hb
  · intro ds1 ds2 bc1 bc2 hds h1 h2
    subst hds
    have e : bc1 = bc2 := Option.some.inj (h1.symm.trans h2)
    subst e
    exact ⟨rfl, rfl, rfl⟩

theorem chain_construction_deterministic_witness :
    ∃ bc, addBlocks NewBlockChain [payloadB1] = some bc ∧
      (∀ b ∈ bc.blocks, b.Timestamp = "now") ∧
      ∀ bc2, addBlocks NewBlockChain [payloadB1] = some bc2 → bc = bc2 := by
  obtain ⟨bc, h, ht⟩ := chain_construction_deterministic.2.1 [payloadB1]
  exact ⟨bc, h, ht, fun bc2 h2 =>
    (chain_construction_deterministic.2.2.1 [payloadB1] [payloadB1] bc bc2 rfl h h2).1⟩

set_option maxRecDepth 100000 in
/-- C19. On the failing input the preimage is not unique per book key: `bookA`
(ISBN `ISBN1`, publish date `2020`) and `bookShifted` (ISBN `ISBN12`, publish
date `020`) differ in ISBN and in publish date, yet `newBook` feeds the same
string `ISBN12020` to MD5 for both and gives both the same id. -/
theorem newBook_distinct_keys_same_input :
    (bookA.ISBN ≠ bookShifted.ISBN ∧ bookA.PublishDate ≠ bookShifted.PublishDate) ∧
    newBookInput bookA = "ISBN12020" ∧ newBookInput bookShifted = "ISBN12020" ∧
    (newBookRecord bookA).ID = "135489eb2b0c0d73290561967607755e" ∧
    (newBookRecord bookShifted).ID = "135489eb2b0c0d73290561967607755e" := by
  decide

end SmallBlockchain
